import Mathlib

/-!
# partqueue: a partitioned blocking queue

A shallow embedding of `item.go`, `partition.go` and `queue.go`.

Go channels are modelled by their contents: a channel made with capacity `c`
is a list of at most `c` elements; a send appends at the tail when there is
room and a receive removes the head.  On a channel of capacity `0` a send and a
receive happen together, in one step (a rendezvous).

Every `select` of the source has two cases, `<-ctx.Done()` and one channel
communication.  A `select` takes a case that is ready; when both are ready Go
picks either.  The case taken is the parameter `Case` of the functions below,
and a function returns `none` when the case asked for is not ready (the
goroutine stays blocked on it).

An execution is a list of `Event`s: calls of `Put`, `Get` and `Done` at the
moment they return, steps of the forwarding loops, and the cancellation of the
queue-wide context.  `exec` runs such a list and records what every call
returned.
-/

namespace partqueue

/-! ## item.go -/

/-- PartitionKey is used to sort items into partitions (`type PartitionKey string`). -/
abbrev PartitionKey := String

/-- The payloads (`interface{}`) the tests of the repository put into the queue. -/
inductive Value where
  | int (n : Int)
  | str (s : String)
deriving DecidableEq, Repr

/-- The errors `ctx.Err()` can return once a context is done. -/
inductive Error where
  | Canceled
  | DeadlineExceeded
deriving DecidableEq, Repr

/-- A `context.Context` at the moment a `select` looks at it: `err` is
`ctx.Err()`, which is `nil` exactly as long as `ctx.Done()` is not closed. -/
structure Context where
  err : Option Error
deriving DecidableEq, Repr

/-- Whether the channel `ctx.Done()` is closed, so that `<-ctx.Done()` is ready. -/
def Context.Done (ctx : Context) : Bool := ctx.err.isSome

/-- A context that is not done. -/
def Context.live : Context := ⟨none⟩

/-- Item wraps a value with its partition metadata.  The back-reference `p`
(`*partition`) is the key under which the partition sits in the registry, or
`none` for a nil pointer. -/
structure Item where
  Key : PartitionKey
  Value : Value
  p : Option PartitionKey
deriving DecidableEq, Repr

/-- The case of a two-way `select` that is taken. -/
inductive Case where
  | ctxDone
  | comm
deriving DecidableEq, Repr

/-! ## partition.go -/

/-- Where the goroutine `partition.run` stands: before its first `select`
(`AcquireSlot`), before its second (`AwaitItem`), before its third with the
item `i` it popped (`Deliver i`), or returned (`Stopped`). -/
inductive Loop where
  | AcquireSlot
  | AwaitItem
  | Deliver (i : Item)
  | Stopped
deriving DecidableEq, Repr

/-- The struct `partition`: `buffer` is the contents of the channel
`make(chan *Item, capacity)` and `cap` its capacity, `inflight` the number of
tokens in `make(chan struct{}, 1)`, and `pc` the state of the goroutine
started by `newPartition`.  The field `out` of the source is the queue's
`buffer`, passed to `run` as an argument. -/
structure partition where
  cap : Nat
  buffer : List Item
  inflight : Nat
  pc : Loop
deriving DecidableEq, Repr

/-- The function `newPartition`: empty channels, and `go p.run(ctx)`. -/
def newPartition (capacity : Nat) : partition :=
  { cap := capacity, buffer := [], inflight := 0, pc := Loop.AcquireSlot }

/-- One `select` of `partition.run`, taking case `c`; `out` and `outCap` are
the contents and capacity of `p.out`.  The receive of an unbuffered
`p.buffer` and the send on an unbuffered `p.out` are not steps of their own:
they happen inside `partition.put` and `Queue.Get`. -/
def partition.run (ctx : Context) (p : partition) (out : List Item) (outCap : Nat)
    (c : Case) : Option (partition × List Item) :=
  match p.pc, c with
  | Loop.Stopped, _ => none
  | _, Case.ctxDone =>
    if ctx.Done then some ({ p with pc := Loop.Stopped }, out) else none
  | Loop.AcquireSlot, Case.comm =>
    if p.inflight < 1 then
      some ({ p with inflight := p.inflight + 1, pc := Loop.AwaitItem }, out)
    else none
  | Loop.AwaitItem, Case.comm =>
    match p.buffer with
    | [] => none
    | i :: rest => some ({ p with buffer := rest, pc := Loop.Deliver i }, out)
  | Loop.Deliver i, Case.comm =>
    if out.length < outCap then some ({ p with pc := Loop.AcquireSlot }, out ++ [i])
    else none

/-- The method `partition.put`: `select` between `<-ctx.Done()` and
`p.buffer <- i`.  The send is ready when the buffer has room or, on an
unbuffered channel, when the loop is waiting in its second `select`, which
then receives `i`. -/
def partition.put (p : partition) (ctx : Context) (c : Case) (i : Item) :
    Option (partition × Option Error) :=
  match c with
  | Case.ctxDone => if ctx.Done then some (p, ctx.err) else none
  | Case.comm =>
    if p.buffer.length < p.cap then some ({ p with buffer := p.buffer ++ [i] }, none)
    else if p.cap = 0 ∧ p.buffer = [] ∧ p.pc = Loop.AwaitItem then
      some ({ p with pc := Loop.Deliver i }, none)
    else none

/-- The method `partition.decrementInflight`: `<-p.inflight`, blocked while the
channel is empty. -/
def partition.decrementInflight (p : partition) : Option partition :=
  if 0 < p.inflight then some { p with inflight := p.inflight - 1 } else none

/-! ## queue.go -/

/-- The default capacity for each partition buffer. -/
def DefaultPartitionCapcity : Nat := 0

/-- The default capacity for the output buffer. -/
def DefaultBufferCapacity : Nat := 0

/-- The struct `Queue`: `parts` is the map from keys to partitions and
`buffer` the contents of the output channel `make(chan *Item, q.bufferCap)`. -/
structure Queue where
  ctx : Context
  bufferCap : Nat
  partCap : Nat
  parts : PartitionKey → Option partition
  buffer : List Item

/-- Option is a function that initializes a Queue (`type Option func(*Queue)`). -/
abbrev QueueOption := Queue → Queue

/-- WithBufferCapacity sets the output buffer capacity. -/
def WithBufferCapacity (n : Nat) : QueueOption := fun q => { q with bufferCap := n }

/-- WithPartitionCapacity sets the buffer capacity for each partition. -/
def WithPartitionCapacity (n : Nat) : QueueOption := fun q => { q with partCap := n }

/-- New returns an initialized Queue. -/
def New (ctx : Context) (opts : List QueueOption) : Queue :=
  let q : Queue :=
    { ctx := ctx, bufferCap := DefaultBufferCapacity, partCap := DefaultPartitionCapcity,
      parts := fun _ => none, buffer := [] }
  let q := opts.foldl (fun q opt => opt q) q
  { q with buffer := [] }

/-- Assignment `q.parts[k] = p`. -/
def Queue.setPart (q : Queue) (k : PartitionKey) (p : partition) : Queue :=
  { q with parts := fun k2 => if k2 = k then some p else q.parts k2 }

/-- The method `getOrCreatePartition`: the partition of `k`, created and
registered when the map has none. -/
def Queue.getOrCreatePartition (q : Queue) (k : PartitionKey) : Queue × partition :=
  match q.parts k with
  | some p => (q, p)
  | none =>
    let p := newPartition q.partCap
    (q.setPart k p, p)

/-- The method `Queue.Put`, at the moment its `select` takes case `c`. -/
def Queue.Put (q : Queue) (ctx : Context) (c : Case) (k : PartitionKey) (v : Value) :
    Option (Queue × Option Error) :=
  let qp := q.getOrCreatePartition k
  let i : Item := { Key := k, Value := v, p := some k }
  match qp.2.put ctx c i with
  | none => none
  | some (p2, err) => some (qp.1.setPart k p2, err)

/-- The method `Queue.Get`, at the moment its `select` takes case `c`.  The
receive takes the head of the output buffer; on an unbuffered output it takes
the item of a loop that is blocked in its third `select`, the loop of
partition `src`. -/
def Queue.Get (q : Queue) (ctx : Context) (c : Case) (src : PartitionKey) :
    Option (Queue × Option Item × Option Error) :=
  match c with
  | Case.ctxDone => if ctx.Done then some (q, none, ctx.err) else none
  | Case.comm =>
    match q.buffer with
    | i :: rest => some ({ q with buffer := rest }, some i, none)
    | [] =>
      if q.bufferCap = 0 then
        match q.parts src with
        | none => none
        | some p =>
          match p.pc with
          | Loop.Deliver i => some (q.setPart src { p with pc := Loop.AcquireSlot }, some i, none)
          | _ => none
      else none

/-- The method `Item.Done`: nothing for an item without partition, else
`decrementInflight` on its partition. -/
def Item.Done (q : Queue) (i : Item) : Option Queue :=
  match i.p with
  | none => some q
  | some k =>
    match q.parts k with
    | none => none
    | some p =>
      match p.decrementInflight with
      | none => none
      | some p2 => some (q.setPart k p2)

/-- One step of the goroutine of partition `k`. -/
def Queue.run (q : Queue) (k : PartitionKey) (c : Case) : Option Queue :=
  match q.parts k with
  | none => none
  | some p =>
    match p.run q.ctx q.buffer q.bufferCap c with
    | none => none
    | some (p2, out) => some { q.setPart k p2 with buffer := out }

/-! ## Executions -/

/-- What happens in an execution.  `getOrCreatePartition k` is the first line
of a `Put` that is still blocked in its `select`. -/
inductive Event where
  | Put (ctx : Context) (c : Case) (k : PartitionKey) (v : Value)
  | Get (ctx : Context) (c : Case) (src : PartitionKey)
  | Done (i : Item)
  | run (k : PartitionKey) (c : Case)
  | getOrCreatePartition (k : PartitionKey)
  | cancel
deriving DecidableEq, Repr

/-- What a call returned. -/
inductive Ret where
  | putRet (err : Option Error)
  | getRet (i : Option Item) (err : Option Error)
  | unit
deriving DecidableEq, Repr

/-- One event on a queue: the next queue and what the call returned, or `none`
when the event cannot happen in `q`. -/
def step (q : Queue) : Event → Option (Queue × Ret)
  | Event.Put ctx c k v =>
    match q.Put ctx c k v with
    | none => none
    | some (q2, err) => some (q2, Ret.putRet err)
  | Event.Get ctx c src =>
    match q.Get ctx c src with
    | none => none
    | some (q2, i, err) => some (q2, Ret.getRet i err)
  | Event.Done i =>
    match i.Done q with
    | none => none
    | some q2 => some (q2, Ret.unit)
  | Event.run k c =>
    match q.run k c with
    | none => none
    | some q2 => some (q2, Ret.unit)
  | Event.getOrCreatePartition k => some ((q.getOrCreatePartition k).1, Ret.unit)
  | Event.cancel =>
    some ({ q with ctx := if q.ctx.Done then q.ctx else ⟨some Error.Canceled⟩ }, Ret.unit)

/-- The history of an execution, oldest entry first. -/
abbrev Hist := List (Event × Ret)

/-- Runs the events of a list one after the other from queue `q` with history `h`. -/
def exec (q : Queue) (h : Hist) : List Event → Option (Queue × Hist)
  | [] => some (q, h)
  | e :: es =>
    match step q e with
    | none => none
    | some (q2, r) => exec q2 (h ++ [(e, r)]) es

/-- The queue `New(ctx, WithPartitionCapacity(N), WithBufferCapacity(M))` with a live `ctx`. -/
def newQueue (N M : Nat) : Queue :=
  New Context.live [WithPartitionCapacity N, WithBufferCapacity M]

/-! ## What a history shows -/

/-- The item an entry shows `Put` to have accepted under key `K`: the call returned `nil`. -/
def Entry.accepted (K : PartitionKey) : Event × Ret → Option Item
  | (Event.Put _ _ k v, Ret.putRet none) =>
    if k = K then some { Key := k, Value := v, p := some k } else none
  | _ => none

/-- The item of key `K` an entry shows `Get` to have returned. -/
def Entry.got (K : PartitionKey) : Event × Ret → Option Item
  | (Event.Get _ _ _, Ret.getRet (some i) _) => if i.Key = K then some i else none
  | _ => none

/-- The items `Put` accepted under key `K`, in the order of the calls. -/
def acceptedItems (K : PartitionKey) (h : Hist) : List Item := h.filterMap (Entry.accepted K)

/-- The items of key `K` that `Get` returned, in the order of the calls. -/
def gotItems (K : PartitionKey) (h : Hist) : List Item := h.filterMap (Entry.got K)

/-- The values `Put(K, .)` accepted. -/
def accepted (K : PartitionKey) (h : Hist) : List Value := (acceptedItems K h).map Item.Value

/-- The values `Get` returned in items of key `K`. -/
def got (K : PartitionKey) (h : Hist) : List Value := (gotItems K h).map Item.Value

/-- Book-keeping of acknowledgements along a history: the items returned by
`Get` and not acknowledged since, and whether every `Done` so far was called
on such an item. -/
def ackStep (st : List Item × Bool) : Event × Ret → List Item × Bool
  | (Event.Get _ _ _, Ret.getRet (some i) _) => (st.1 ++ [i], st.2)
  | (Event.Done i, _) => (st.1.erase i, st.2 && (i.p.isNone || decide (i ∈ st.1)))
  | _ => st

/-- The items returned by `Get` on which `Done` has not been called since. -/
def unacked (h : Hist) : List Item := (h.foldl ackStep ([], true)).1

/-- The caller's obligation: every `Done` of the history is called on an item
that `Get` returned and that was not acknowledged before, so `Done` is called
at most once on each item and only on items obtained from `Get`.  A `Done` on
an item without partition, which does nothing, is allowed as well. -/
def Disciplined (h : Hist) : Prop := (h.foldl ackStep ([], true)).2 = true

instance (h : Hist) : Decidable (Disciplined h) := by
  unfold Disciplined; infer_instance

/-- The items of key `K` in the shared output. -/
def outOf (K : PartitionKey) (q : Queue) : List Item := q.buffer.filter (fun i => i.Key = K)

/-- The unacknowledged items of key `K`. -/
def unackedOf (K : PartitionKey) (h : Hist) : List Item := (unacked h).filter (fun i => i.Key = K)

/-- The item the loop holds between popping it and sending it. -/
def Loop.held : Loop → List Item
  | Loop.Deliver i => [i]
  | _ => []

/-- The number of items of key `K` in flight: taken out of the pending buffer
by the loop and not acknowledged. -/
def inFlight (K : PartitionKey) (q : Queue) (h : Hist) : Nat :=
  (match q.parts K with
    | none => 0
    | some p => p.pc.held.length) + (outOf K q).length + (unackedOf K h).length

/-! ## The invariant -/

/-- Where the item that was popped and not yet sent stands, by the state of
the loop: `mid` is that item, or the item a loop held when it returned. -/
def MidRel : Loop → List Item → Prop
  | Loop.AcquireSlot, mid => mid = []
  | Loop.AwaitItem, mid => mid = []
  | Loop.Deliver i, mid => mid = [i]
  | Loop.Stopped, mid => mid.length ≤ 1

/-- The in-flight gate, by the state of the loop: `t` tokens in `inflight`,
`o` items of the key in the output, `u` unacknowledged items of the key. -/
def TokRel : Loop → List Item → Nat → Nat → Nat → Prop
  | Loop.AcquireSlot, _, t, o, u => o + u = t
  | Loop.AwaitItem, _, t, o, u => t = 1 ∧ o = 0 ∧ u = 0
  | Loop.Deliver _, _, t, o, u => t = 1 ∧ o = 0 ∧ u = 0
  | Loop.Stopped, mid, t, o, u => mid.length + o + u ≤ t

/-- Whether the loop holds the gate: it has put its token in and not yet sent the item. -/
def Loop.slot : Loop → Nat
  | Loop.AwaitItem => 1
  | Loop.Deliver _ => 1
  | _ => 0

/-- A token in the gate of a running loop stands for the loop holding the
gate, for an item in the output, or for an item `Get` has returned: `o` the
items of the key in the output, `g` the items of the key returned by `Get`. -/
def Gate (p : partition) (o g : List Item) : Prop :=
  p.pc ≠ Loop.Stopped → p.inflight ≤ p.pc.slot + o.length + g.length

/-- The invariant of the partition of key `K`: `a` the items accepted under
`K`, `g` the items of `K` returned by `Get`, `o` the items of `K` in the output,
`u` the unacknowledged items of `K`, `d` whether `Done` was called as it must. -/
structure PInv (N : Nat) (K : PartitionKey) (p : partition) (a g o u : List Item)
    (d : Prop) : Prop where
  cap : p.cap = N
  room : p.buffer.length ≤ N
  tok : p.inflight ≤ 1
  keys : ∀ i ∈ p.buffer, i.Key = K ∧ i.p = some K
  flow : ∃ mid, a = g ++ o ++ mid ++ p.buffer ∧ MidRel p.pc mid ∧
    (d → TokRel p.pc mid p.inflight o.length u.length)

/-- The invariant of the queue built with capacities `N` and `M`. -/
structure Inv (N M : Nat) (q : Queue) (h : Hist) : Prop where
  partCap : q.partCap = N
  bufferCap : q.bufferCap = M
  outRoom : q.buffer.length ≤ M
  ackWF : ∀ i ∈ unacked h, i.p = some i.Key
  live : q.ctx.Done = false → ∀ K p, q.parts K = some p → p.pc ≠ Loop.Stopped
  parts : ∀ K p, q.parts K = some p →
    PInv N K p (acceptedItems K h) (gotItems K h) (outOf K q) (unackedOf K h) (Disciplined h)
  absent : ∀ K, q.parts K = none →
    acceptedItems K h = [] ∧ gotItems K h = [] ∧ outOf K q = [] ∧ unackedOf K h = []
  gate : ∀ K p, q.parts K = some p → Gate p (outOf K q) (gotItems K h)

/-- An entry that is neither an accepted `Put`, nor a `Get` that returned an
item, nor a `Done`. -/
def Silent (x : Event × Ret) : Prop :=
  (∀ K, Entry.accepted K x = none) ∧ (∀ K, Entry.got K x = none) ∧
    (∀ st, ackStep st x = st) ∧ ∀ i, x.1 ≠ Event.Done i

/-- Key `K` looks the same in `q2`, `h2` as in `q`, `h`. -/
def Same (K : PartitionKey) (q : Queue) (h : Hist) (q2 : Queue) (h2 : Hist) : Prop :=
  q2.parts K = q.parts K ∧ acceptedItems K h2 = acceptedItems K h ∧
    gotItems K h2 = gotItems K h ∧ outOf K q2 = outOf K q ∧
    (Disciplined h2 → unackedOf K h2 = unackedOf K h) ∧
    (unackedOf K h = [] → unackedOf K h2 = [])

/-- Whether an event is a call of `Get`. -/
def Event.isGet : Event → Bool
  | Event.Get _ _ _ => true
  | _ => false

/-- Whether an event is a call of `Done`. -/
def Event.isDone : Event → Bool
  | Event.Done _ => true
  | _ => false

/-- No entry of the history is a `Get`: `Get` is never called. -/
def NoGet (h : Hist) : Prop := ∀ x ∈ h, x.1.isGet = false

instance (h : Hist) : Decidable (NoGet h) := by
  unfold NoGet; infer_instance

/-- Book-keeping of what a caller can acknowledge: the items `Get` has
returned so far, and whether every `Done` so far was called on one of them or
on an item without partition. -/
def obtStep (st : List Item × Bool) : Event × Ret → List Item × Bool
  | (Event.Get _ _ _, Ret.getRet (some i) _) => (st.1 ++ [i], st.2)
  | (Event.Done i, _) => (st.1, st.2 && (i.p.isNone || decide (i ∈ st.1)))
  | _ => st

/-- What the visibility rules of Go give every caller: the field `p` of `Item`
is unexported, so `Done` is only ever called on an item without partition (an
`Item` the caller built) or on an item that `Get` returned, any number of
times. -/
def Obtained (h : Hist) : Prop := (h.foldl obtStep ([], true)).2 = true

instance (h : Hist) : Decidable (Obtained h) := by
  unfold Obtained; infer_instance

/-- Whether an entry is a `Get` that returned an item. -/
def Entry.isGot : Event × Ret → Bool
  | (Event.Get _ _ _, Ret.getRet (some _) _) => true
  | _ => false

/-- The number of `Get` calls that returned an item. -/
def getCount (h : Hist) : Nat := h.countP Entry.isGot

/-- The key of an accepted `Put`. -/
def Entry.acceptedKey : Event × Ret → Option PartitionKey
  | (Event.Put _ _ k _, Ret.putRet none) => some k
  | _ => none

/-- The keys under which `Put` accepted an item. -/
def acceptedKeys (h : Hist) : List PartitionKey := h.filterMap Entry.acceptedKey

/-- The item `Put(k, v)` enqueues. -/
def item (k : PartitionKey) (n : Int) : Item := { Key := k, Value := Value.int n, p := some k }

/-- One round of a consumer on an unbuffered output: the loop of `k` pops its
next item, `Get` receives it, the consumer calls `Done`, the loop takes the
gate again. -/
def round (k : PartitionKey) (n : Int) : List Event :=
  [Event.run k Case.comm, Event.Get Context.live Case.comm k, Event.Done (item k n),
    Event.run k Case.comm]

/-- The producer side of `TestPartitionOrder` for one key. -/
def produce (k : PartitionKey) (ns : List Int) : List Event :=
  [Event.getOrCreatePartition k, Event.run k Case.comm] ++
    ns.map (fun n => Event.Put Context.live Case.comm k (Value.int n))

/-- An execution of `TestPartitionOrder`: partition capacity 5, output
capacity 0, the ten rounds interleaved between the two keys. -/
def scenarioA : List Event :=
  produce "A" [0, 1, 2, 3, 4] ++ produce "B" [5, 6, 7, 8, 9] ++
    round "A" 0 ++ round "B" 5 ++ round "B" 6 ++ round "A" 1 ++ round "A" 2 ++
    round "B" 7 ++ round "A" 3 ++ round "B" 8 ++ round "B" 9 ++ round "A" 4

/-- A context whose deadline has passed. -/
def Context.expired : Context := ⟨some Error.DeadlineExceeded⟩

/-- Two items of "A" are put, the first is returned by `Get` and not yet acknowledged. -/
def oneInFlight : List Event :=
  produce "A" [0, 1] ++ [Event.run "A" Case.comm, Event.Get Context.live Case.comm "A"]

/-- An item is accepted and popped by its loop, which then blocks on the
unbuffered output. -/
def heldByLoop : List Event :=
  produce "a" [1] ++ [Event.run "a" Case.comm]

/-- After `heldByLoop` the queue-wide context is cancelled and the loop returns. -/
def droppedByLoop : List Event :=
  heldByLoop ++ [Event.cancel, Event.run "a" Case.ctxDone]

/-- `Done` is called twice on the first item of "K": the second call takes the
token the loop put in for the second item, so the third item is delivered
while the second is not acknowledged. -/
def doubleDone : List Event :=
  produce "K" [1, 2, 3] ++
    [Event.run "K" Case.comm, Event.Get Context.live Case.comm "K", Event.Done (item "K" 1),
      Event.run "K" Case.comm, Event.Done (item "K" 1),
      Event.run "K" Case.comm, Event.Get Context.live Case.comm "K",
      Event.run "K" Case.comm, Event.run "K" Case.comm, Event.Get Context.live Case.comm "K"]

/-- The smallest execution in which `N + 1` calls of `Put` to one key are
accepted without any `Get`: the loop takes the gate and the first item, the
next `N` items fill the pending buffer. -/
def fill (N : Nat) (k : PartitionKey) (v : Value) : List Event :=
  [Event.getOrCreatePartition k, Event.run k Case.comm, Event.Put Context.live Case.comm k v] ++
    (if N = 0 then [] else [Event.run k Case.comm]) ++
    List.replicate N (Event.Put Context.live Case.comm k v)

/-- Whether an event is a `Put` under `K` whose `select` takes the send. -/
def Event.isSend (K : PartitionKey) : Event → Bool
  | Event.Put _ Case.comm k _ => decide (k = K)
  | _ => false

/-- What the calls of a history returned. -/
def returns (h : Hist) : List Ret := h.map Prod.snd

/-- The execution of `TestPut`: capacities 0, the loop of "a" takes the gate,
the first `Put` hands its item to the loop, the second `Put` returns when its
deadline passes. -/
def testPut : List Event :=
  [Event.getOrCreatePartition "a", Event.run "a" Case.comm,
    Event.Put Context.live Case.comm "a" (Value.str "a"),
    Event.Put Context.expired Case.ctxDone "a" (Value.str "a")]

/-- The execution of `TestPut` in which the second `Put` would be accepted. -/
def testPutSend : List Event :=
  [Event.getOrCreatePartition "a", Event.run "a" Case.comm,
    Event.Put Context.live Case.comm "a" (Value.str "a"),
    Event.Put Context.expired Case.comm "a" (Value.str "a")]

/-- No `Put` has been accepted and no `Get` called; the loop of "a" has taken the gate. -/
def loopWaiting : List Event :=
  [Event.getOrCreatePartition "a", Event.run "a" Case.comm]

/-- One `Put` has been accepted with partition capacity 1 and no `Get` called;
the loop of "a" has popped the item. -/
def loopHolding : List Event :=
  loopWaiting ++ [Event.Put Context.live Case.comm "a" (Value.int 1), Event.run "a" Case.comm]

/-- The execution of `TestGet`: capacities 0; a first `Get` fails on its
deadline, then one `Put` is accepted. -/
def testGet : List Event :=
  [Event.Get Context.expired Case.ctxDone "a", Event.getOrCreatePartition "a",
    Event.run "a" Case.comm, Event.Put Context.live Case.comm "a" (Value.str "a")]

/-- After `testGet` the queue-wide context is cancelled and the loop returns. -/
def testGetCancelled : List Event :=
  testGet ++ [Event.cancel, Event.run "a" Case.ctxDone]

/-- The loop of "a" waits for an item on an unbuffered partition, and a `Put` hands it one. -/
def handOff : List Event :=
  loopWaiting ++ [Event.Put Context.live Case.comm "a" (Value.int 1)]

/-- A `Put` with an expired context on a partition with room, the send being taken. -/
def lateSend : List Event :=
  [Event.Put Context.expired Case.comm "a" (Value.int 1)]

/-- A `Put` with an expired context on a partition with room, the error being taken. -/
def lateError : List Event :=
  [Event.Put Context.expired Case.ctxDone "a" (Value.int 1)]

/-- The queue-wide context is cancelled, then a `Put` with a live context is accepted. -/
def putAfterCancel : List Event :=
  [Event.cancel, Event.Put Context.live Case.comm "a" (Value.int 1)]

/-- An item reaches the shared output, the queue-wide context is cancelled,
the loop returns, then a `Get` with a live context returns the item. -/
def getAfterCancel : List Event :=
  [Event.getOrCreatePartition "a", Event.run "a" Case.comm,
    Event.Put Context.live Case.comm "a" (Value.int 1), Event.run "a" Case.comm,
    Event.cancel, Event.run "a" Case.ctxDone, Event.Get Context.live Case.comm "a"]

/-- The events of a consumer and of the loop of `B`: calls of `Get`, steps of
the loop of `B` that communicate, and `Done` on items of `B`. -/
def Event.serves (B : PartitionKey) : Event → Bool
  | Event.Get _ _ _ => true
  | Event.run k c => decide (k = B) && decide (c = Case.comm)
  | Event.Done i => decide (i.Key = B)
  | _ => false

/-- A state from which the next item `x` of `B` is to be delivered while item
`a` of another key `A` stays unacknowledged: the queue is live and `x` is the
first accepted item of `B` that `Get` has not returned. -/
structure Ready (N M : Nat) (A B : PartitionKey) (a x : Item) (rest : List Item)
    (q : Queue) (h : Hist) : Prop where
  inv : Inv N M q h
  live : q.ctx.Done = false
  keys : A ≠ B
  akey : a.Key = A
  ack : a ∈ unacked h
  next : acceptedItems B h = gotItems B h ++ x :: rest

/-- What is to be shown from a `Ready` state: events that serve `B`, with
`Done` only on items of `B` that `Get` had returned, after which `Get` has
returned `x` and `a` is still unacknowledged. -/
def Served (B : PartitionKey) (a x : Item) (q : Queue) (h : Hist) : Prop :=
  ∃ tr q2 h2, exec q h tr = some (q2, h2) ∧ (∀ e ∈ tr, e.serves B = true) ∧
    (∀ i, Event.Done i ∈ tr → i ∈ gotItems B h) ∧
    gotItems B h2 = gotItems B h ++ [x] ∧ a ∈ unacked h2

/-- One item of key `k` is put, forwarded and returned by `Get`, and not acknowledged. -/
def serve (N M : Nat) (k : PartitionKey) (v : Value) : List Event :=
  [Event.getOrCreatePartition k, Event.run k Case.comm, Event.Put Context.live Case.comm k v] ++
    (if N = 0 then [] else [Event.run k Case.comm]) ++
    (if M = 0 then [] else [Event.run k Case.comm]) ++
    [Event.Get Context.live Case.comm k]

/-- An item of "A" is returned by `Get` and not acknowledged; an item of "B"
is accepted into its pending buffer; the queue-wide context is cancelled and
the loop of "B" returns before it took the gate. -/
def stalled : List Event :=
  serve 1 0 "A" (Value.int 0) ++
    [Event.getOrCreatePartition "B", Event.Put Context.live Case.comm "B" (Value.int 5),
      Event.cancel, Event.run "B" Case.ctxDone]

/-- As `stalled`, with the queue-wide context live and the loop of "B" still before the gate. -/
def waiting : List Event :=
  serve 1 0 "A" (Value.int 0) ++
    [Event.getOrCreatePartition "B", Event.Put Context.live Case.comm "B" (Value.int 5)]

/-- The items of key `K` inside its partition: the one the loop holds and the pending buffer. -/
def placed (K : PartitionKey) (q : Queue) : List Item :=
  match q.parts K with
  | none => []
  | some p => p.pc.held ++ p.buffer

/-- The item the loop of `K` holds, if any. -/
def heldOf (K : PartitionKey) (q : Queue) : List Item :=
  match q.parts K with
  | none => []
  | some p => p.pc.held

/-- The number of accepted items of `K` that are in none of the four places:
returned by `Get`, in the shared output, held by the loop, in the pending buffer. -/
def missing (K : PartitionKey) (q : Queue) (h : Hist) : Nat :=
  (acceptedItems K h).length -
    ((gotItems K h).length + (outOf K q).length + (placed K q).length)

/-! ## Theorems -/

theorem acceptedItems_snoc (K : PartitionKey) (h : Hist) (x : Event × Ret) :
    acceptedItems K (h ++ [x]) = acceptedItems K h ++ (Entry.accepted K x).toList := by
  simp only [acceptedItems, List.filterMap_append]
  cases hx : Entry.accepted K x <;> simp [List.filterMap, hx]

theorem gotItems_snoc (K : PartitionKey) (h : Hist) (x : Event × Ret) :
    gotItems K (h ++ [x]) = gotItems K h ++ (Entry.got K x).toList := by
  simp only [gotItems, List.filterMap_append]
  cases hx : Entry.got K x <;> simp [List.filterMap, hx]

theorem unacked_snoc (h : Hist) (x : Event × Ret) :
    unacked (h ++ [x]) = (ackStep (unacked h, true) x).1 := by
  simp only [unacked, List.foldl_append, List.foldl_cons, List.foldl_nil]
  rcases x with ⟨e, r⟩
  cases e <;> cases r <;> simp [ackStep]
  split <;> simp_all

theorem Disciplined_snoc (h : Hist) (x : Event × Ret) :
    Disciplined (h ++ [x]) ↔
      Disciplined h ∧ ∀ i, x.1 = Event.Done i → i.p = none ∨ i ∈ unacked h := by
  simp only [Disciplined, unacked, List.foldl_append, List.foldl_cons, List.foldl_nil]
  rcases x with ⟨e, r⟩
  cases e <;> cases r <;> simp [ackStep]
  split <;> simp_all

theorem Silent.accepted {x : Event × Ret} (hx : Silent x) (K : PartitionKey) (h : Hist) :
    acceptedItems K (h ++ [x]) = acceptedItems K h := by
  simp [acceptedItems_snoc, hx.1 K]

theorem Silent.got {x : Event × Ret} (hx : Silent x) (K : PartitionKey) (h : Hist) :
    gotItems K (h ++ [x]) = gotItems K h := by
  simp [gotItems_snoc, hx.2.1 K]

theorem Silent.unacked {x : Event × Ret} (hx : Silent x) (h : Hist) :
    unacked (h ++ [x]) = unacked h := by
  simp [unacked_snoc, hx.2.2.1]

theorem Silent.unackedOf {x : Event × Ret} (hx : Silent x) (K : PartitionKey) (h : Hist) :
    unackedOf K (h ++ [x]) = unackedOf K h := by
  simp [partqueue.unackedOf, hx.unacked]

theorem Silent.disciplined {x : Event × Ret} (hx : Silent x) (h : Hist) :
    Disciplined (h ++ [x]) ↔ Disciplined h := by
  rw [Disciplined_snoc]
  constructor
  · exact fun hd => hd.1
  · exact fun hd => ⟨hd, fun i hi => absurd hi (hx.2.2.2 i)⟩

theorem silent_unit (e : Event) (he : ∀ i, e ≠ Event.Done i) : Silent (e, Ret.unit) := by
  refine ⟨fun K => ?_, fun K => ?_, fun st => ?_, he⟩
  · cases e <;> rfl
  · cases e <;> rfl
  · cases e <;> first | rfl | exact absurd rfl (he _)

theorem silent_putErr (ctx : Context) (c : Case) (k : PartitionKey) (v : Value) (err : Error) :
    Silent (Event.Put ctx c k v, Ret.putRet (some err)) :=
  ⟨fun _ => rfl, fun _ => rfl, fun _ => rfl, fun _ hi => by cases hi⟩

theorem silent_getErr (ctx : Context) (c : Case) (k : PartitionKey) (err : Option Error) :
    Silent (Event.Get ctx c k, Ret.getRet none err) :=
  ⟨fun _ => rfl, fun _ => rfl, fun _ => rfl, fun _ hi => by cases hi⟩

theorem PInv.congr {N : Nat} {K : PartitionKey} {p : partition} {a g o u a2 g2 o2 u2 : List Item}
    {d d2 : Prop} (hp : PInv N K p a g o u d) (ha : a2 = a) (hg : g2 = g) (ho : o2 = o)
    (hu : d2 → u2 = u) (hd : d2 → d) : PInv N K p a2 g2 o2 u2 d2 := by
  subst ha hg ho
  obtain ⟨h1, h2, h3, h4, mid, h5, h6, h7⟩ := hp
  exact ⟨h1, h2, h3, h4, mid, h5, h6, fun x => hu x ▸ h7 (hd x)⟩

/-- A silent entry with a queue whose partitions and output are the same keeps
the invariant, whatever happens to the context. -/
theorem Inv.silent_same {N M : Nat} {q q2 : Queue} {h : Hist} {x : Event × Ret}
    (hI : Inv N M q h) (hx : Silent x) (h1 : q2.partCap = q.partCap)
    (h2 : q2.bufferCap = q.bufferCap) (h3 : q2.buffer = q.buffer) (h4 : q2.parts = q.parts)
    (h5 : q2.ctx.Done = false → q.ctx.Done = false) : Inv N M q2 (h ++ [x]) := by
  have ho : ∀ K, outOf K q2 = outOf K q := fun K => by simp [outOf, h3]
  refine ⟨h1 ▸ hI.partCap, h2 ▸ hI.bufferCap, h3 ▸ hI.outRoom, ?_, ?_, ?_, ?_, ?_⟩
  · rw [hx.unacked]; exact hI.ackWF
  · intro hl K p hp; rw [h4] at hp; exact hI.live (h5 hl) K p hp
  · intro K p hp; rw [h4] at hp
    exact (hI.parts K p hp).congr (hx.accepted K h) (hx.got K h) (ho K)
      (fun _ => hx.unackedOf K h) (hx.disciplined h).1
  · intro K hp; rw [h4] at hp
    rw [hx.accepted, hx.got, ho, hx.unackedOf]; exact hI.absent K hp
  · intro K p hp; rw [h4] at hp
    rw [ho, hx.got]; exact hI.gate K p hp

/-- The invariant is kept when every key either looks the same or has a
partition that satisfies its invariant. -/
theorem Inv.update {N M : Nat} {q q2 : Queue} {h h2 : Hist} (hI : Inv N M q h)
    (h1 : q2.partCap = q.partCap) (h2c : q2.bufferCap = q.bufferCap)
    (h3 : q2.buffer.length ≤ M) (hack : ∀ i ∈ unacked h2, i.p = some i.Key)
    (hlive : q2.ctx.Done = false → ∀ K p, q2.parts K = some p → p.pc ≠ Loop.Stopped)
    (hd : Disciplined h2 → Disciplined h)
    (hK : ∀ K, Same K q h q2 h2 ∨ ∃ p2, q2.parts K = some p2 ∧
      Gate p2 (outOf K q2) (gotItems K h2) ∧
      PInv N K p2 (acceptedItems K h2) (gotItems K h2) (outOf K q2) (unackedOf K h2)
        (Disciplined h2)) : Inv N M q2 h2 := by
  refine ⟨h1 ▸ hI.partCap, h2c ▸ hI.bufferCap, h3, hack, hlive, ?_, ?_, ?_⟩
  · intro K p hp
    rcases hK K with ⟨s1, s2, s3, s4, s5, _⟩ | ⟨p2, hp2, _, hinv⟩
    · rw [s1] at hp
      exact (hI.parts K p hp).congr s2 s3 s4 s5 hd
    · rw [hp2] at hp; cases hp; exact hinv
  · intro K hp
    rcases hK K with ⟨s1, s2, s3, s4, _, s6⟩ | ⟨p2, hp2, _⟩
    · rw [s1] at hp
      obtain ⟨a1, a2, a3, a4⟩ := hI.absent K hp
      exact ⟨s2 ▸ a1, s3 ▸ a2, s4 ▸ a3, s6 a4⟩
    · rw [hp2] at hp; cases hp
  · intro K p hp
    rcases hK K with ⟨s1, _, s3, s4, _, _⟩ | ⟨p2, hp2, hg, _⟩
    · rw [s1] at hp
      rw [s3, s4]; exact hI.gate K p hp
    · rw [hp2] at hp; cases hp; exact hg

/-- A silent entry leaves a key the same when its partition and its items in
the output are the same. -/
theorem Same.of_silent {x : Event × Ret} (hx : Silent x) (K : PartitionKey) (q q2 : Queue)
    (h : Hist) (hp : q2.parts K = q.parts K) (ho : outOf K q2 = outOf K q) :
    Same K q h q2 (h ++ [x]) :=
  ⟨hp, hx.accepted K h, hx.got K h, ho, fun _ => hx.unackedOf K h,
    fun hu => (hx.unackedOf K h).trans hu⟩

@[simp] theorem setPart_parts_self (q : Queue) (k : PartitionKey) (p : partition) :
    (q.setPart k p).parts k = some p := by simp [Queue.setPart]

theorem setPart_parts_ne (q : Queue) (k K : PartitionKey) (p : partition) (hK : K ≠ k) :
    (q.setPart k p).parts K = q.parts K := by simp [Queue.setPart, hK]

@[simp] theorem setPart_buffer (q : Queue) (k : PartitionKey) (p : partition) :
    (q.setPart k p).buffer = q.buffer := rfl

@[simp] theorem setPart_ctx (q : Queue) (k : PartitionKey) (p : partition) :
    (q.setPart k p).ctx = q.ctx := rfl

@[simp] theorem setPart_partCap (q : Queue) (k : PartitionKey) (p : partition) :
    (q.setPart k p).partCap = q.partCap := rfl

@[simp] theorem setPart_bufferCap (q : Queue) (k : PartitionKey) (p : partition) :
    (q.setPart k p).bufferCap = q.bufferCap := rfl

@[simp] theorem outOf_setPart (K : PartitionKey) (q : Queue) (k : PartitionKey) (p : partition) :
    outOf K (q.setPart k p) = outOf K q := rfl

/-- The invariant of a partition that was just created. -/
theorem PInv.fresh {N M : Nat} {q : Queue} {h : Hist} (hI : Inv N M q h) (k : PartitionKey)
    (hk : q.parts k = none) :
    PInv N k (newPartition q.partCap) (acceptedItems k h) (gotItems k h) (outOf k q)
      (unackedOf k h) (Disciplined h) := by
  obtain ⟨a1, a2, a3, a4⟩ := hI.absent k hk
  refine ⟨hI.partCap, by simp [newPartition], by simp [newPartition],
    by simp [newPartition], [], ?_, rfl, fun _ => ?_⟩
  · simp [a1, a2, a3, newPartition]
  · simp [TokRel, newPartition, a3, a4]

/-- What `getOrCreatePartition` returns. -/
theorem getOrCreate_spec (q : Queue) (k : PartitionKey) :
    (q.parts k = some (q.getOrCreatePartition k).2 ∧ (q.getOrCreatePartition k).1 = q) ∨
    (q.parts k = none ∧ (q.getOrCreatePartition k).2 = newPartition q.partCap ∧
      (q.getOrCreatePartition k).1 = q.setPart k (newPartition q.partCap)) := by
  unfold Queue.getOrCreatePartition
  cases hk : q.parts k <;> simp

theorem getOrCreate_parts (q : Queue) (k : PartitionKey) :
    (q.getOrCreatePartition k).1.parts k = some (q.getOrCreatePartition k).2 := by
  rcases getOrCreate_spec q k with ⟨h1, h2⟩ | ⟨_, h2, h3⟩
  · rw [h2]; exact h1
  · rw [h3, h2]; simp

theorem Inv.create {N M : Nat} {q : Queue} {h : Hist} (hI : Inv N M q h) (k : PartitionKey) :
    Inv N M (q.getOrCreatePartition k).1 h := by
  rcases getOrCreate_spec q k with ⟨_, h2⟩ | ⟨h1, _, h3⟩
  · rw [h2]; exact hI
  · rw [h3]
    refine hI.update rfl rfl hI.outRoom hI.ackWF ?_ id ?_
    · intro hl K p hp
      by_cases hK : K = k
      · subst hK; simp at hp; subst hp; simp [newPartition]
      · rw [setPart_parts_ne _ _ _ _ hK] at hp; exact hI.live hl K p hp
    · intro K
      by_cases hK : K = k
      · subst hK
        exact Or.inr ⟨_, setPart_parts_self _ _ _, fun _ => by simp [newPartition],
          PInv.fresh hI K h1⟩
      · exact Or.inl ⟨setPart_parts_ne _ _ _ _ hK, rfl, rfl, rfl, fun _ => rfl, id⟩

/-- An accepted `Put` under `k` leaves every other key the same. -/
theorem Same.of_put {K k : PartitionKey} (hK : K ≠ k) (q q2 : Queue) (h : Hist) (ctx : Context)
    (c : Case) (v : Value) (hp : q2.parts K = q.parts K) (ho : outOf K q2 = outOf K q) :
    Same K q h q2 (h ++ [(Event.Put ctx c k v, Ret.putRet none)]) := by
  have hu : unacked (h ++ [(Event.Put ctx c k v, Ret.putRet none)]) = unacked h := by
    simp [unacked_snoc, ackStep]
  refine ⟨hp, ?_, ?_, ho, fun _ => ?_, fun h0 => ?_⟩
  · simp [acceptedItems_snoc, Entry.accepted, Ne.symm hK]
  · simp [gotItems_snoc, Entry.got]
  · simp [unackedOf, hu]
  · simpa [unackedOf, hu] using h0

theorem Inv.Put {N M : Nat} {q q2 : Queue} {h : Hist} (hI : Inv N M q h) (ctx : Context)
    (c : Case) (k : PartitionKey) (v : Value) (err : Option Error)
    (hs : q.Put ctx c k v = some (q2, err)) :
    Inv N M q2 (h ++ [(Event.Put ctx c k v, Ret.putRet err)]) := by
  have hI1 := hI.create k
  have hp1 := getOrCreate_parts q k
  unfold Queue.Put at hs
  simp only at hs
  generalize (q.getOrCreatePartition k).1 = q1 at hI1 hp1 hs
  generalize (q.getOrCreatePartition k).2 = p at hp1 hs
  have hP := hI1.parts k p hp1
  cases hput : p.put ctx c ⟨k, v, some k⟩ with
  | none => simp [hput] at hs
  | some r =>
    obtain ⟨p2, e2⟩ := r
    simp only [hput, Option.some.injEq, Prod.mk.injEq] at hs
    obtain ⟨rfl, rfl⟩ := hs
    unfold partition.put at hput
    cases c with
    | ctxDone =>
      simp only at hput
      split at hput
      · rename_i hdone
        simp only [Option.some.injEq, Prod.mk.injEq] at hput
        obtain ⟨rfl, rfl⟩ := hput
        obtain ⟨e, he⟩ : ∃ e, ctx.err = some e := by
          cases hc : ctx.err with
          | none => simp [Context.Done, hc] at hdone
          | some e => exact ⟨e, rfl⟩
        rw [he]
        have hx := silent_putErr ctx Case.ctxDone k v e
        refine hI1.update rfl rfl hI1.outRoom (by rw [hx.unacked]; exact hI1.ackWF) ?_
          (hx.disciplined h).1 ?_
        · intro hl K p3 hp3
          by_cases hK : K = k
          · subst hK; simp at hp3; subst hp3; exact hI1.live hl K _ hp1
          · rw [setPart_parts_ne _ _ _ _ hK] at hp3; exact hI1.live hl K p3 hp3
        · intro K
          by_cases hK : K = k
          · subst hK
            exact Or.inr ⟨_, setPart_parts_self _ _ _,
              by rw [hx.got]; exact hI1.gate K _ hp1,
              hP.congr (hx.accepted K h) (hx.got K h) rfl
                (fun _ => hx.unackedOf K h) (hx.disciplined h).1⟩
          · exact Or.inl (Same.of_silent hx K _ _ h (setPart_parts_ne _ _ _ _ hK) rfl)
      · cases hput
    | comm =>
      simp only at hput
      have he : e2 = none := by
        split at hput
        · simp at hput; exact hput.2.symm
        · split at hput
          · simp at hput; exact hput.2.symm
          · cases hput
      subst he
      have hu : unacked (h ++ [(Event.Put ctx Case.comm k v, Ret.putRet none)]) = unacked h := by
        simp [unacked_snoc, ackStep]
      have hd : Disciplined (h ++ [(Event.Put ctx Case.comm k v, Ret.putRet none)]) →
          Disciplined h := fun hd => ((Disciplined_snoc _ _).1 hd).1
      have ha : acceptedItems k (h ++ [(Event.Put ctx Case.comm k v, Ret.putRet none)]) =
          acceptedItems k h ++ [⟨k, v, some k⟩] := by
        simp [acceptedItems_snoc, Entry.accepted]
      have hg : gotItems k (h ++ [(Event.Put ctx Case.comm k v, Ret.putRet none)]) =
          gotItems k h := by
        simp [gotItems_snoc, Entry.got]
      have huo : unackedOf k (h ++ [(Event.Put ctx Case.comm k v, Ret.putRet none)]) =
          unackedOf k h := by
        simp [unackedOf, hu]
      obtain ⟨c1, c2, c3, c4, mid, c5, c6, c7⟩ := hP
      have cg := hI1.gate k p hp1
      have key : PInv N k p2 (acceptedItems k h ++ [⟨k, v, some k⟩]) (gotItems k h) (outOf k q1)
          (unackedOf k h) (Disciplined h) ∧ (p.pc ≠ Loop.Stopped → p2.pc ≠ Loop.Stopped) ∧
          Gate p2 (outOf k q1) (gotItems k h) := by
        split at hput
        · rename_i hroom
          simp only [Option.some.injEq, Prod.mk.injEq, and_true] at hput
          subst hput
          refine ⟨⟨c1, ?_, c3, ?_, mid, ?_, c6, c7⟩, id, cg⟩
          · simp; omega
          · intro i hi
            rcases List.mem_append.1 hi with hi | hi
            · exact c4 i hi
            · simp at hi; subst hi; exact ⟨rfl, rfl⟩
          · simp [c5]
        · split at hput
          · rename_i hz
            obtain ⟨hz1, hz2, hz3⟩ := hz
            simp only [Option.some.injEq, Prod.mk.injEq, and_true] at hput
            subst hput
            rw [hz3] at c6 c7
            simp only [MidRel] at c6
            subst c6
            refine ⟨⟨c1, c2, c3, c4, [⟨k, v, some k⟩], ?_, rfl, c7⟩, fun _ => by simp, ?_⟩
            · simp [c5, hz2]
            · intro _
              have g0 := cg (by rw [hz3]; simp)
              rw [hz3] at g0
              exact g0
          · cases hput
      refine hI1.update rfl rfl hI1.outRoom (by rw [hu]; exact hI1.ackWF) ?_ hd ?_
      · intro hl K p3 hp3
        by_cases hK : K = k
        · subst hK; simp at hp3; subst hp3; exact key.2.1 (hI1.live hl K _ hp1)
        · rw [setPart_parts_ne _ _ _ _ hK] at hp3; exact hI1.live hl K p3 hp3
      · intro K
        by_cases hK : K = k
        · subst hK
          exact Or.inr ⟨_, setPart_parts_self _ _ _, by rw [hg]; exact key.2.2,
            key.1.congr ha hg rfl (fun _ => huo) hd⟩
        · exact Or.inl (Same.of_put hK _ _ h ctx _ v (setPart_parts_ne _ _ _ _ hK) rfl)

theorem Entry.accepted_wf (K : PartitionKey) (x : Event × Ret) (i : Item)
    (hx : Entry.accepted K x = some i) : i.Key = K ∧ i.p = some K := by
  obtain ⟨e, r⟩ := x
  match e, r, hx with
  | Event.Put _ _ k v, Ret.putRet none, hx =>
    simp only [Entry.accepted] at hx
    split at hx
    · rename_i hk; cases hx; exact ⟨hk, by rw [hk]⟩
    · cases hx

theorem acceptedItems_wf (K : PartitionKey) (h : Hist) :
    ∀ i ∈ acceptedItems K h, i.Key = K ∧ i.p = some K := by
  intro i hi
  simp only [acceptedItems, List.mem_filterMap] at hi
  obtain ⟨x, _, hx⟩ := hi
  exact Entry.accepted_wf K x i hx

/-- A `Get` that returned item `i` leaves every key but the key of `i` the same. -/
theorem Same.of_get {K : PartitionKey} {i : Item} (hK : i.Key ≠ K) (q q2 : Queue) (h : Hist)
    (ctx : Context) (c : Case) (src : PartitionKey) (err : Option Error)
    (hp : q2.parts K = q.parts K) (ho : outOf K q2 = outOf K q) :
    Same K q h q2 (h ++ [(Event.Get ctx c src, Ret.getRet (some i) err)]) := by
  have hu : unackedOf K (h ++ [(Event.Get ctx c src, Ret.getRet (some i) err)]) =
      unackedOf K h := by
    simp [unackedOf, unacked_snoc, ackStep, List.filter_append, hK]
  refine ⟨hp, ?_, ?_, ho, fun _ => hu, fun h0 => hu.trans h0⟩
  · simp [acceptedItems_snoc, Entry.accepted]
  · simp [gotItems_snoc, Entry.got, hK]

theorem Inv.Get {N M : Nat} {q q2 : Queue} {h : Hist} (hI : Inv N M q h) (ctx : Context)
    (c : Case) (src : PartitionKey) (oi : Option Item) (err : Option Error)
    (hs : q.Get ctx c src = some (q2, oi, err)) :
    Inv N M q2 (h ++ [(Event.Get ctx c src, Ret.getRet oi err)]) := by
  unfold Queue.Get at hs
  cases c with
  | ctxDone =>
    simp only at hs
    split at hs
    · simp only [Option.some.injEq, Prod.mk.injEq] at hs
      obtain ⟨rfl, rfl, rfl⟩ := hs
      exact hI.silent_same (silent_getErr ctx _ src _) rfl rfl rfl rfl id
    · cases hs
  | comm =>
    simp only at hs
    split at hs
    · rename_i i rest hbuf
      simp only [Option.some.injEq, Prod.mk.injEq] at hs
      obtain ⟨rfl, rfl, rfl⟩ := hs
      have hmem : i ∈ outOf i.Key q := by simp [outOf, hbuf]
      cases hk : q.parts i.Key with
      | none =>
        have h0 := (hI.absent _ hk).2.2.1
        rw [h0] at hmem; cases hmem
      | some p =>
        obtain ⟨c1, c2, c3, c4, mid, c5, c6, c7⟩ := hI.parts _ p hk
        have hiw : i.p = some i.Key := by
          have hia : i ∈ acceptedItems i.Key h := by rw [c5]; simp [hmem]
          exact (acceptedItems_wf _ _ i hia).2
        have hu : unacked (h ++ [(Event.Get ctx Case.comm src, Ret.getRet (some i) none)]) =
            unacked h ++ [i] := by simp [unacked_snoc, ackStep]
        have hd : Disciplined (h ++ [(Event.Get ctx Case.comm src, Ret.getRet (some i) none)]) →
            Disciplined h := fun hd => ((Disciplined_snoc _ _).1 hd).1
        refine hI.update rfl rfl ?_ ?_ ?_ hd ?_
        · have hr := hI.outRoom
          rw [hbuf] at hr; simp only [List.length_cons] at hr
          show rest.length ≤ M
          omega
        · intro j hj
          rw [hu] at hj
          rcases List.mem_append.1 hj with hj | hj
          · exact hI.ackWF j hj
          · simp only [List.mem_singleton] at hj; subst hj; exact hiw
        · intro hl K p3 hp3; exact hI.live hl K p3 hp3
        · intro K
          by_cases hK : i.Key = K
          · subst hK
            have ho : outOf i.Key q = i :: outOf i.Key { q with buffer := rest } := by
              simp [outOf, hbuf]
            refine Or.inr ⟨p, hk, ?_, c1, c2, c3, c4, mid, ?_, c6, ?_⟩
            · intro hne
              have g0 := hI.gate _ p hk hne
              rw [ho] at g0
              have hg2 : (gotItems i.Key (h ++ [(Event.Get ctx Case.comm src,
                  Ret.getRet (some i) none)])).length = (gotItems i.Key h).length + 1 := by
                simp [gotItems_snoc, Entry.got]
              rw [hg2]
              simp only [List.length_cons] at g0
              omega
            · have ha : acceptedItems i.Key (h ++ [(Event.Get ctx Case.comm src,
                  Ret.getRet (some i) none)]) = acceptedItems i.Key h := by
                simp [acceptedItems_snoc, Entry.accepted]
              rw [ha, c5, ho]; simp [gotItems_snoc, Entry.got]
            · intro hD
              have t := c7 (hd hD)
              rw [ho] at t
              have hu2 : (unackedOf i.Key (h ++ [(Event.Get ctx Case.comm src,
                  Ret.getRet (some i) none)])).length = (unackedOf i.Key h).length + 1 := by
                simp [unackedOf, hu, List.filter_append]
              rw [hu2]
              simp only [List.length_cons] at t
              generalize p.pc = pc at t ⊢
              cases pc <;> simp only [TokRel] at t ⊢ <;> omega
          · exact Or.inl (Same.of_get hK q _ h ctx _ src _ rfl (by simp [outOf, hbuf, hK]))
    · rename_i hbuf
      split at hs
      · rename_i hcap
        split at hs
        · cases hs
        · rename_i p hk
          split at hs
          · rename_i i hpc
            simp only [Option.some.injEq, Prod.mk.injEq] at hs
            obtain ⟨rfl, rfl, rfl⟩ := hs
            obtain ⟨c1, c2, c3, c4, mid, c5, c6, c7⟩ := hI.parts _ p hk
            rw [hpc] at c6 c7
            simp only [MidRel] at c6
            subst c6
            have hiw : i.Key = src ∧ i.p = some src :=
              acceptedItems_wf _ _ i (by rw [c5]; simp)
            have hu : unacked (h ++ [(Event.Get ctx Case.comm src, Ret.getRet (some i) none)]) =
                unacked h ++ [i] := by simp [unacked_snoc, ackStep]
            have hd : Disciplined (h ++ [(Event.Get ctx Case.comm src,
                Ret.getRet (some i) none)]) → Disciplined h :=
              fun hd => ((Disciplined_snoc _ _).1 hd).1
            have ho : outOf src q = [] := by simp [outOf, hbuf]
            refine hI.update rfl rfl hI.outRoom ?_ ?_ hd ?_
            · intro j hj
              rw [hu] at hj
              rcases List.mem_append.1 hj with hj | hj
              · exact hI.ackWF j hj
              · simp only [List.mem_singleton] at hj; subst hj; rw [hiw.1]; exact hiw.2
            · intro hl K p3 hp3
              by_cases hK : K = src
              · subst hK; simp at hp3; subst hp3; simp
              · rw [setPart_parts_ne _ _ _ _ hK] at hp3; exact hI.live hl K p3 hp3
            · intro K
              by_cases hK : K = src
              · subst hK
                refine Or.inr ⟨_, setPart_parts_self _ _ _, ?_, c1, c2, c3, c4, [], ?_, rfl, ?_⟩
                · intro _
                  have hg2 : (gotItems K (h ++ [(Event.Get ctx Case.comm K,
                      Ret.getRet (some i) none)])).length = (gotItems K h).length + 1 := by
                    simp [gotItems_snoc, Entry.got, hiw.1]
                  rw [hg2]
                  show p.inflight ≤ _
                  omega
                · have ha : acceptedItems K (h ++ [(Event.Get ctx Case.comm K,
                      Ret.getRet (some i) none)]) = acceptedItems K h := by
                    simp [acceptedItems_snoc, Entry.accepted]
                  rw [ha, c5]; simp [gotItems_snoc, Entry.got, hiw.1, ho]
                · intro hD
                  have t := c7 (hd hD)
                  have hu2 : (unackedOf K (h ++ [(Event.Get ctx Case.comm K,
                      Ret.getRet (some i) none)])).length = (unackedOf K h).length + 1 := by
                    simp [unackedOf, hu, List.filter_append, hiw.1]
                  rw [hu2]
                  simp only [TokRel, outOf_setPart] at t ⊢
                  omega
              · exact Or.inl (Same.of_get (by rw [hiw.1]; exact Ne.symm hK) q _ h ctx _ src _
                  (setPart_parts_ne _ _ _ _ hK) rfl)
          · cases hs
      · cases hs

theorem filter_erase_of_neg (P : Item → Bool) (l : List Item) (i : Item) (hP : P i = false) :
    (l.erase i).filter P = l.filter P := by
  induction l with
  | nil => rfl
  | cons a l ih =>
    by_cases ha : a = i
    · subst ha; simp [hP]
    · rw [List.erase_cons_tail (by simpa using ha)]
      simp [List.filter_cons, ih]

theorem length_filter_erase (P : Item → Bool) (l : List Item) (i : Item) (hi : i ∈ l)
    (hP : P i = true) : ((l.erase i).filter P).length + 1 = (l.filter P).length := by
  induction l with
  | nil => cases hi
  | cons a l ih =>
    by_cases ha : a = i
    · subst ha; simp [hP]
    · rw [List.erase_cons_tail (by simpa using ha)]
      have hi2 : i ∈ l := by
        rcases List.mem_cons.1 hi with h1 | h1
        · exact absurd h1.symm ha
        · exact h1
      have := ih hi2
      by_cases hPa : P a = true <;> simp [List.filter_cons, hPa] <;> omega

theorem filter_erase_nil (P : Item → Bool) (l : List Item) (i : Item) (h0 : l.filter P = []) :
    (l.erase i).filter P = [] := by
  rw [List.filter_eq_nil_iff] at h0 ⊢
  exact fun a ha => h0 a (List.mem_of_mem_erase ha)

theorem Inv.Done {N M : Nat} {q q2 : Queue} {h : Hist} (hI : Inv N M q h) (i : Item)
    (hs : i.Done q = some q2) : Inv N M q2 (h ++ [(Event.Done i, Ret.unit)]) := by
  have hu : unacked (h ++ [(Event.Done i, Ret.unit)]) = (unacked h).erase i := by
    simp [unacked_snoc, ackStep]
  have hD : Disciplined (h ++ [(Event.Done i, Ret.unit)]) →
      Disciplined h ∧ (i.p = none ∨ i ∈ unacked h) :=
    fun hd => ⟨((Disciplined_snoc _ _).1 hd).1, ((Disciplined_snoc _ _).1 hd).2 i rfl⟩
  have hack : ∀ j ∈ unacked (h ++ [(Event.Done i, Ret.unit)]), j.p = some j.Key := by
    intro j hj; rw [hu] at hj; exact hI.ackWF j (List.mem_of_mem_erase hj)
  have hsame : ∀ K q3, q3.parts K = q.parts K → outOf K q3 = outOf K q →
      (Disciplined (h ++ [(Event.Done i, Ret.unit)]) → i.Key ≠ K ∨ i ∉ unacked h) →
      Same K q h q3 (h ++ [(Event.Done i, Ret.unit)]) := by
    intro K q3 hp ho hk
    refine ⟨hp, ?_, ?_, ho, fun hd => ?_, fun h0 => ?_⟩
    · simp [acceptedItems_snoc, Entry.accepted]
    · simp [gotItems_snoc, Entry.got]
    · simp only [unackedOf, hu]
      rcases hk hd with hk | hk
      · exact filter_erase_of_neg _ _ _ (by simpa using hk)
      · rw [List.erase_of_not_mem hk]
    · simp only [unackedOf, hu]
      exact filter_erase_nil _ _ _ h0
  unfold Item.Done at hs
  split at hs
  · rename_i hp
    cases hs
    refine hI.update rfl rfl hI.outRoom hack hI.live (fun hd => (hD hd).1) (fun K => ?_)
    refine Or.inl (hsame K q rfl rfl (fun _ => Or.inr (fun hi => ?_)))
    have := hI.ackWF i hi
    rw [hp] at this; cases this
  · rename_i k hp
    split at hs
    · cases hs
    · rename_i p hk
      split at hs
      · cases hs
      · rename_i p2 hdec
        cases hs
        unfold partition.decrementInflight at hdec
        split at hdec
        · rename_i htok
          cases hdec
          refine hI.update rfl rfl hI.outRoom hack ?_ (fun hd => (hD hd).1) (fun K => ?_)
          · intro hl K p3 hp3
            by_cases hK : K = k
            · subst hK; simp at hp3; subst hp3; exact hI.live hl K p hk
            · rw [setPart_parts_ne _ _ _ _ hK] at hp3; exact hI.live hl K p3 hp3
          · by_cases hK : K = k
            · subst hK
              obtain ⟨c1, c2, c3, c4, mid, c5, c6, c7⟩ := hI.parts _ p hk
              refine Or.inr ⟨_, setPart_parts_self _ _ _, ?_, c1, c2, by simp; omega, c4, mid, ?_,
                c6, ?_⟩
              · intro hne
                have g0 := hI.gate _ p hk hne
                have hg2 : gotItems K (h ++ [(Event.Done i, Ret.unit)]) = gotItems K h := by
                  simp [gotItems_snoc, Entry.got]
                rw [hg2]
                show p.inflight - 1 ≤ _
                simp only [outOf_setPart]
                omega
              · simp [acceptedItems_snoc, Entry.accepted, gotItems_snoc, Entry.got, c5]
              · intro hd
                have t := c7 (hD hd).1
                have hiu : i ∈ unacked h := by
                  rcases (hD hd).2 with h0 | h0
                  · rw [hp] at h0; cases h0
                  · exact h0
                have hiK : i.Key = K := by
                  have := hI.ackWF i hiu
                  rw [hp] at this; cases this; rfl
                have hlen := length_filter_erase (fun j => decide (j.Key = K)) (unacked h) i
                  hiu (by simpa using hiK)
                simp only [unackedOf, hu, outOf_setPart]
                simp only [unackedOf] at t
                generalize p.pc = pc at t ⊢
                cases pc <;> simp only [TokRel] at t ⊢ <;> omega
            · refine Or.inl (hsame K _ (setPart_parts_ne _ _ _ _ hK) rfl (fun hd => ?_))
              by_cases hiu : i ∈ unacked h
              · have := hI.ackWF i hiu
                rw [hp] at this; cases this
                exact Or.inl (Ne.symm hK)
              · exact Or.inr hiu
        · cases hdec

theorem Inv.run {N M : Nat} {q q2 : Queue} {h : Hist} (hI : Inv N M q h) (k : PartitionKey)
    (c : Case) (hs : q.run k c = some q2) : Inv N M q2 (h ++ [(Event.run k c, Ret.unit)]) := by
  have hx : Silent (Event.run k c, Ret.unit) := silent_unit _ (fun _ hi => by cases hi)
  unfold Queue.run at hs
  split at hs
  · cases hs
  · rename_i p hk
    split at hs
    · cases hs
    · rename_i p2 out hrun
      cases hs
      obtain ⟨c1, c2, c3, c4, mid, c5, c6, c7⟩ := hI.parts _ p hk
      -- what the step does to partition `k` and to the output
      have key : (out = q.buffer ∨ ∃ i, i.Key = k ∧ out = q.buffer ++ [i]) ∧
          out.length ≤ M ∧ (q.ctx.Done = false → p2.pc ≠ Loop.Stopped) ∧
          Gate p2 (out.filter (fun i => i.Key = k)) (gotItems k h) ∧
          PInv N k p2 (acceptedItems k h) (gotItems k h) (out.filter (fun i => i.Key = k))
            (unackedOf k h) (Disciplined h) := by
        have cg := hI.gate k p hk
        unfold partition.run at hrun
        split at hrun
        · cases hrun
        · rename_i hns
          split at hrun
          · rename_i hdone
            cases hrun
            refine ⟨Or.inl rfl, hI.outRoom, fun hl => by simp [hl] at hdone,
              fun hne => absurd rfl hne, c1, c2, c3, c4, mid, c5, ?_, fun hd => ?_⟩
            · generalize p.pc = pc at c6
              cases pc <;> simp_all [MidRel]
            · have t := c7 hd
              show TokRel Loop.Stopped mid p.inflight (outOf k q).length _
              generalize p.pc = pc at c6 t
              cases pc <;> simp_all [MidRel, TokRel]
          · cases hrun
        · rename_i hpc
          split at hrun
          · rename_i htok
            cases hrun
            rw [hpc] at c6 c7
            refine ⟨Or.inl rfl, hI.outRoom, fun _ => by simp,
              fun _ => by simp [Loop.slot]; omega, c1, c2, by simp; omega, c4,
              mid, c5, c6, fun hd => ?_⟩
            have t := c7 hd
            show TokRel Loop.AwaitItem mid (p.inflight + 1) (outOf k q).length _
            simp only [TokRel] at t ⊢
            omega
          · cases hrun
        · rename_i hpc
          split at hrun
          · cases hrun
          · rename_i i rest hbuf
            cases hrun
            rw [hpc] at c6 c7
            simp only [MidRel] at c6
            subst c6
            refine ⟨Or.inl rfl, hI.outRoom, fun _ => by simp, ?_, c1, ?_, c3, ?_, [i], ?_, rfl,
              fun hd => c7 hd⟩
            · intro _
              have g0 := cg (by rw [hpc]; simp)
              rw [hpc] at g0
              exact g0
            · rw [hbuf] at c2; simp only [List.length_cons] at c2
              show rest.length ≤ N
              omega
            · intro j hj; exact c4 j (by rw [hbuf]; exact List.mem_cons_of_mem _ hj)
            · rw [c5, hbuf]; simp [outOf]
        · rename_i i hpc
          split at hrun
          · rename_i hroom
            cases hrun
            rw [hpc] at c6 c7
            simp only [MidRel] at c6
            subst c6
            have hiw : i.Key = k ∧ i.p = some k := acceptedItems_wf _ _ i (by rw [c5]; simp)
            refine ⟨Or.inr ⟨i, hiw.1, rfl⟩, ?_, fun _ => by simp, ?_, c1, c2, c3, c4, [], ?_, rfl,
              fun hd => ?_⟩
            · rw [hI.bufferCap] at hroom; simp; omega
            · intro _
              have g0 := cg (by rw [hpc]; simp)
              rw [hpc] at g0
              simp only [Loop.slot, outOf] at g0
              simp [Loop.slot, List.filter_append, hiw.1]
              omega
            · rw [c5]; simp [outOf, List.filter_append, hiw.1]
            · have t := c7 hd
              simp only [TokRel, List.filter_append, List.length_append] at t ⊢
              simp [hiw.1]
              simp only [outOf] at t
              omega
          · cases hrun
      obtain ⟨k1, k2, k3, k5, k4⟩ := key
      refine hI.update rfl rfl k2 (by rw [hx.unacked]; exact hI.ackWF) ?_ (hx.disciplined h).1 ?_
      · intro hl K p3 hp3
        by_cases hK : K = k
        · subst hK
          have : p3 = p2 := by simpa [Queue.setPart] using hp3.symm
          subst this; exact k3 hl
        · have : q.parts K = some p3 := by simpa [Queue.setPart, hK] using hp3
          exact hI.live hl K p3 this
      · intro K
        by_cases hK : K = k
        · subst hK
          refine Or.inr ⟨p2, by simp [Queue.setPart], by rw [hx.got]; exact k5, ?_⟩
          exact k4.congr (hx.accepted K h) (hx.got K h) rfl (fun _ => hx.unackedOf K h)
            (hx.disciplined h).1
        · refine Or.inl (Same.of_silent hx K _ _ h (by simp [Queue.setPart, hK]) ?_)
          rcases k1 with rfl | ⟨i, hi, rfl⟩
          · rfl
          · have : ¬ i.Key = K := by rw [hi]; exact Ne.symm hK
            simp [outOf, List.filter_append, this]

theorem silent_create (k : PartitionKey) : Silent (Event.getOrCreatePartition k, Ret.unit) :=
  silent_unit _ (fun _ hi => by cases hi)

theorem silent_cancel : Silent (Event.cancel, Ret.unit) :=
  silent_unit _ (fun _ hi => by cases hi)

/-- Every event keeps the invariant. -/
theorem Inv.of_step {N M : Nat} {q q2 : Queue} {h : Hist} (hI : Inv N M q h) (e : Event) (r : Ret)
    (hs : partqueue.step q e = some (q2, r)) : Inv N M q2 (h ++ [(e, r)]) := by
  cases e with
  | Put ctx c k v =>
    simp only [partqueue.step] at hs
    split at hs
    · cases hs
    · rename_i q3 err hput
      cases hs
      exact hI.Put ctx c k v err hput
  | Get ctx c src =>
    simp only [partqueue.step] at hs
    split at hs
    · cases hs
    · rename_i q3 i err hget
      cases hs
      exact hI.Get ctx c src i err hget
  | Done i =>
    simp only [partqueue.step] at hs
    split at hs
    · cases hs
    · rename_i q3 hdone
      cases hs
      exact hI.Done i hdone
  | run k c =>
    simp only [partqueue.step] at hs
    split at hs
    · cases hs
    · rename_i q3 hrun
      cases hs
      exact hI.run k c hrun
  | getOrCreatePartition k =>
    simp only [partqueue.step, Option.some.injEq, Prod.mk.injEq] at hs
    obtain ⟨rfl, rfl⟩ := hs
    exact (hI.create k).silent_same (silent_create k) rfl rfl rfl rfl id
  | cancel =>
    simp only [partqueue.step, Option.some.injEq, Prod.mk.injEq] at hs
    obtain ⟨rfl, rfl⟩ := hs
    refine hI.silent_same silent_cancel rfl rfl rfl rfl (fun hl => ?_)
    by_cases hc : q.ctx.Done = true
    · simp only [hc, if_true] at hl; cases hl
    · simp only [hc] at hl; simp [Context.Done] at hl

theorem Inv.init (N M : Nat) : Inv N M (newQueue N M) [] := by
  refine ⟨rfl, rfl, Nat.zero_le _, ?_, ?_, ?_, ?_, ?_⟩
  · intro i hi; cases hi
  · intro _ K p hp; cases hp
  · intro K p hp; cases hp
  · intro K _; exact ⟨rfl, rfl, rfl, rfl⟩
  · intro K p hp; cases hp

/-- The invariant holds along every execution. -/
theorem Inv.of_exec {N M : Nat} (tr : List Event) {q q2 : Queue} {h h2 : Hist} (hI : Inv N M q h)
    (hx : partqueue.exec q h tr = some (q2, h2)) : Inv N M q2 h2 := by
  induction tr generalizing q h with
  | nil => simp only [partqueue.exec, Option.some.injEq, Prod.mk.injEq] at hx
           obtain ⟨rfl, rfl⟩ := hx; exact hI
  | cons e es ih =>
    simp only [partqueue.exec] at hx
    split at hx
    · cases hx
    · rename_i q3 r hstep
      exact ih (hI.of_step e r hstep) hx

theorem Inv.reach {N M : Nat} {tr : List Event} {q : Queue} {h : Hist}
    (hx : partqueue.exec (newQueue N M) [] tr = some (q, h)) : Inv N M q h :=
  Inv.of_exec tr (Inv.init N M) hx

/-! ## Consequences of the invariant -/

/-- The items accepted under a key are, in order: those returned by `Get`,
those in the output, the one the loop holds, the one a stopped loop held when
it returned, and the pending buffer. -/
theorem conservation {N M : Nat} {q : Queue} {h : Hist} (hI : Inv N M q h) (K : PartitionKey)
    (p : partition) (hp : q.parts K = some p) :
    ∃ dropped, acceptedItems K h =
        gotItems K h ++ outOf K q ++ p.pc.held ++ dropped ++ p.buffer ∧
      (p.pc ≠ Loop.Stopped → dropped = []) ∧ dropped.length ≤ 1 := by
  obtain ⟨_, _, _, _, mid, c5, c6, _⟩ := hI.parts K p hp
  generalize p.pc = pc at c6
  cases pc with
  | AcquireSlot => simp only [MidRel] at c6; subst c6; exact ⟨[], by simpa [Loop.held] using c5, fun _ => rfl, by simp⟩
  | AwaitItem => simp only [MidRel] at c6; subst c6; exact ⟨[], by simpa [Loop.held] using c5, fun _ => rfl, by simp⟩
  | Deliver i => simp only [MidRel] at c6; subst c6; exact ⟨[], by simpa [Loop.held] using c5, fun _ => rfl, by simp⟩
  | Stopped => exact ⟨mid, by simpa [Loop.held] using c5, fun hne => absurd rfl hne, c6⟩

theorem gotItems_initial {N M : Nat} {q : Queue} {h : Hist} (hI : Inv N M q h) (K : PartitionKey) :
    gotItems K h <+: acceptedItems K h := by
  cases hp : q.parts K with
  | none => rw [(hI.absent K hp).2.1]; exact List.nil_prefix
  | some p =>
    obtain ⟨_, _, _, _, mid, c5, _, _⟩ := hI.parts K p hp
    exact ⟨outOf K q ++ mid ++ p.buffer, by rw [c5]; simp⟩

theorem got_initial {N M : Nat} {q : Queue} {h : Hist} (hI : Inv N M q h) (K : PartitionKey) :
    got K h <+: accepted K h := by
  obtain ⟨t, ht⟩ := gotItems_initial hI K
  exact ⟨t.map Item.Value, by simp [got, accepted, ← ht]⟩

/-- The gate bounds what is outside the pending buffer and not acknowledged. -/
theorem flight_bound {pc : Loop} {mid : List Item} {t o u : Nat} (hm : MidRel pc mid)
    (ht : TokRel pc mid t o u) :
    mid.length + o + u ≤ t ∧ pc.held.length ≤ mid.length ∧
      (pc = Loop.AwaitItem → mid.length + o + u = 0) := by
  cases pc with
  | AcquireSlot => simp only [MidRel] at hm; subst hm; simp [TokRel] at ht; simp [Loop.held]; omega
  | AwaitItem => simp only [MidRel] at hm; subst hm; simp [TokRel] at ht; simp [Loop.held]; omega
  | Deliver i => simp only [MidRel] at hm; subst hm; simp [TokRel] at ht; simp [Loop.held]; omega
  | Stopped => simp [TokRel] at ht; simp [Loop.held]; omega

/-- Under the caller's obligation at most one item of a key is in flight. -/
theorem inFlight_le_one {N M : Nat} {q : Queue} {h : Hist} (hI : Inv N M q h)
    (hd : Disciplined h) (K : PartitionKey) : inFlight K q h ≤ 1 := by
  unfold inFlight
  cases hp : q.parts K with
  | none =>
    obtain ⟨_, _, a3, a4⟩ := hI.absent K hp
    simp [a3, a4]
  | some p =>
    obtain ⟨_, _, c3, _, mid, _, c6, c7⟩ := hI.parts K p hp
    have t := flight_bound c6 (c7 hd)
    simp only
    omega

/-- Under the caller's obligation the gate of an unacknowledged item holds its token. -/
theorem token_present {N M : Nat} {q : Queue} {h : Hist} (hI : Inv N M q h)
    (hd : Disciplined h) (i : Item) (hi : i ∈ unacked h) :
    i.p = some i.Key ∧ ∃ p, q.parts i.Key = some p ∧ p.inflight = 1 := by
  have hu : i ∈ unackedOf i.Key h := by simp [unackedOf, hi]
  refine ⟨hI.ackWF i hi, ?_⟩
  cases hp : q.parts i.Key with
  | none =>
    rw [(hI.absent _ hp).2.2.2] at hu; cases hu
  | some p =>
    obtain ⟨_, _, c3, _, mid, _, c6, c7⟩ := hI.parts _ p hp
    have t := c7 hd
    have hl : 0 < (unackedOf i.Key h).length := List.length_pos_of_mem hu
    have t2 := flight_bound c6 t
    exact ⟨p, rfl, by omega⟩

theorem NoGet.gotItems_nil {h : Hist} (hn : NoGet h) (K : PartitionKey) : gotItems K h = [] := by
  simp only [partqueue.gotItems, List.filterMap_eq_nil_iff]
  intro x hx
  obtain ⟨e, r⟩ := x
  cases e <;> cases r <;> first | rfl | exact absurd (hn _ hx) (by simp [Event.isGet])

theorem NoGet.unacked_nil {h : Hist} (hn : NoGet h) : unacked h = [] := by
  induction h using List.reverseRecOn with
  | nil => rfl
  | append_singleton h x ih =>
    have hn2 : NoGet h := fun y hy => hn y (List.mem_append_left _ hy)
    have hx := hn x (by simp)
    rw [unacked_snoc, ih hn2]
    obtain ⟨e, r⟩ := x
    cases e <;> cases r <;> first | rfl | exact absurd hx (by simp [Event.isGet])

/-- Without `Get`, under the caller's obligation, a key has at most one item
outside its pending buffer. -/
theorem admitted_le {N M : Nat} {q : Queue} {h : Hist} (hI : Inv N M q h) (hn : NoGet h)
    (hd : Disciplined h) (K : PartitionKey) : (acceptedItems K h).length ≤ N + 1 := by
  cases hp : q.parts K with
  | none => rw [(hI.absent K hp).1]; simp
  | some p =>
    obtain ⟨_, c2, c3, _, mid, c5, c6, c7⟩ := hI.parts K p hp
    have t := flight_bound c6 (c7 hd)
    rw [c5, hn.gotItems_nil K]
    simp only [List.nil_append, List.length_append]
    omega

/-- Once `N + 1` items are admitted without `Get`, the send of `Put` is not ready. -/
theorem put_blocked {N M : Nat} {q : Queue} {h : Hist} (hI : Inv N M q h) (hn : NoGet h)
    (hd : Disciplined h) (K : PartitionKey) (hfull : (acceptedItems K h).length = N + 1)
    (ctx : Context) (v : Value) : q.Put ctx Case.comm K v = none := by
  cases hp : q.parts K with
  | none => rw [(hI.absent K hp).1] at hfull; simp at hfull
  | some p =>
    obtain ⟨c1, c2, c3, _, mid, c5, c6, c7⟩ := hI.parts K p hp
    have t := flight_bound c6 (c7 hd)
    rw [c5, hn.gotItems_nil K] at hfull
    simp only [List.nil_append, List.length_append] at hfull
    have hbuf : p.buffer.length = N ∧ p.pc ≠ Loop.AwaitItem := by
      refine ⟨by omega, fun hc => ?_⟩
      have := t.2.2 hc
      omega
    simp [Queue.Put, Queue.getOrCreatePartition, hp, partition.put, c1, hbuf.1, hbuf.2]

theorem Entry.got_of_isGot (x : Event × Ret) :
    (Entry.isGot x = true ∧ ∃ i, ∀ K, Entry.got K x = if i.Key = K then some i else none) ∨
    (Entry.isGot x = false ∧ ∀ K, Entry.got K x = none) := by
  obtain ⟨e, r⟩ := x
  cases e with
  | Get ctx c src =>
    cases r with
    | getRet oi err =>
      cases oi with
      | none => exact Or.inr ⟨rfl, fun _ => rfl⟩
      | some i => exact Or.inl ⟨rfl, i, fun _ => rfl⟩
    | putRet err => exact Or.inr ⟨rfl, fun _ => rfl⟩
    | unit => exact Or.inr ⟨rfl, fun _ => rfl⟩
  | Put ctx c k v => exact Or.inr ⟨rfl, fun _ => rfl⟩
  | Done i => exact Or.inr ⟨rfl, fun _ => rfl⟩
  | run k c => exact Or.inr ⟨rfl, fun _ => rfl⟩
  | getOrCreatePartition k => exact Or.inr ⟨rfl, fun _ => rfl⟩
  | cancel => exact Or.inr ⟨rfl, fun _ => rfl⟩

theorem accepted_nil_of_not_mem (K : PartitionKey) (h : Hist) (hK : K ∉ acceptedKeys h) :
    accepted K h = [] := by
  simp only [accepted, acceptedItems, List.map_eq_nil_iff, List.filterMap_eq_nil_iff]
  intro x hx
  obtain ⟨e, r⟩ := x
  cases e with
  | Put ctx c k v =>
    cases r with
    | putRet err =>
      cases err with
      | none =>
        have : k ∈ acceptedKeys h := List.mem_filterMap.2 ⟨_, hx, rfl⟩
        have hne : ¬ k = K := fun hk => hK (hk ▸ this)
        simp [Entry.accepted, hne]
      | some e => rfl
    | getRet oi err => rfl
    | unit => rfl
  | Get ctx c src => rfl
  | Done i => rfl
  | run k c => rfl
  | getOrCreatePartition k => rfl
  | cancel => rfl

/-- When only two keys ever come out of `Get`, every returned item counts for one of them. -/
theorem getCount_two (A B : PartitionKey) (hAB : A ≠ B) (h : Hist)
    (hK : ∀ K, K ≠ A → K ≠ B → gotItems K h = []) :
    getCount h = (gotItems A h).length + (gotItems B h).length := by
  induction h with
  | nil => rfl
  | cons x h ih =>
    have hK2 : ∀ K, K ≠ A → K ≠ B → Entry.got K x = none ∧ gotItems K h = [] := by
      intro K h1 h2
      have := hK K h1 h2
      simp only [gotItems, List.filterMap_cons] at this
      cases hx : Entry.got K x with
      | none => rw [hx] at this; exact ⟨rfl, this⟩
      | some i => rw [hx] at this; cases this
    have ih2 := ih (fun K h1 h2 => (hK2 K h1 h2).2)
    simp only [getCount, gotItems] at ih2 ⊢
    rcases Entry.got_of_isGot x with ⟨h1, i, h2⟩ | ⟨h1, h2⟩
    · by_cases hA : i.Key = A
      · have hB : ¬ i.Key = B := fun hB => hAB (hA.symm.trans hB)
        simp [List.countP_cons, List.filterMap_cons, h1, h2, hA, hB, ih2, hAB, Ne.symm hAB]
        omega
      · by_cases hB : i.Key = B
        · simp [List.countP_cons, List.filterMap_cons, h1, h2, hA, hB, ih2, hAB, Ne.symm hAB]
          omega
        · have := (hK2 i.Key hA hB).1
          rw [h2] at this; simp at this
    · simp [List.countP_cons, List.filterMap_cons, h1, h2, ih2]

/-- When every accepted item of two keys has come out of `Get`, each key's
items came out in the order they were put. -/
theorem drained {N M : Nat} {q : Queue} {h : Hist} (hI : Inv N M q h) (A B : PartitionKey)
    (hAB : A ≠ B) (hK : ∀ K, K ≠ A → K ≠ B → accepted K h = [])
    (hn : getCount h = (accepted A h).length + (accepted B h).length) :
    got A h = accepted A h ∧ got B h = accepted B h := by
  have hg : ∀ K, K ≠ A → K ≠ B → gotItems K h = [] := by
    intro K h1 h2
    have hp := got_initial hI K
    rw [hK K h1 h2] at hp
    have := List.prefix_nil.1 hp
    simpa [got] using this
  have hc := getCount_two A B hAB h hg
  have hA := got_initial hI A
  have hB := got_initial hI B
  have hlA := hA.length_le
  have hlB := hB.length_le
  have e1 : (got A h).length = (gotItems A h).length := by simp [got]
  have e2 : (got B h).length = (gotItems B h).length := by simp [got]
  exact ⟨hA.eq_of_length (by omega), hB.eq_of_length (by omega)⟩

/-- C1: per-key FIFO.  In every execution of the queue, whatever the
capacities and whatever the callers do, the values `Get` returned in items of
key `K` are a prefix of the values `Put(K, .)` accepted, in the same order.  In
particular, when 0,1,2,3,4 were accepted under "A" and 5,6,7,8,9 under "B", nothing
else was put, and ten calls of `Get` returned an item, the items of "A" came
out as 0,1,2,3,4 and those of "B" as 5,6,7,8,9. -/
theorem C1_per_key_fifo (N M : Nat) (tr : List Event) (q : Queue) (h : Hist)
    (hx : exec (newQueue N M) [] tr = some (q, h)) :
    (∀ K, got K h <+: accepted K h) ∧
    (accepted "A" h = [0, 1, 2, 3, 4].map Value.int →
      accepted "B" h = [5, 6, 7, 8, 9].map Value.int →
      (∀ k ∈ acceptedKeys h, k = "A" ∨ k = "B") →
      getCount h = 10 →
      got "A" h = [0, 1, 2, 3, 4].map Value.int ∧ got "B" h = [5, 6, 7, 8, 9].map Value.int) := by
  have hI := Inv.reach hx
  refine ⟨got_initial hI, fun hA hB hK hn => ?_⟩
  have hK2 : ∀ K, K ≠ "A" → K ≠ "B" → accepted K h = [] := fun K h1 h2 =>
    accepted_nil_of_not_mem K h (fun hm => (hK K hm).elim h1 h2)
  have := drained hI "A" "B" (by decide) hK2 (by rw [hA, hB, hn]; rfl)
  rw [hA, hB] at this
  exact this

theorem scenarioA_runs : (exec (newQueue 5 0) [] scenarioA).isSome = true := by decide

/-- The execution `scenarioA` of `TestPartitionOrder` yields 0,1,2,3,4 for "A" and 5,6,7,8,9 for "B". -/
theorem C1_per_key_fifo_witness :
    ∃ q h, exec (newQueue 5 0) [] scenarioA = some (q, h) ∧
      got "A" h = [0, 1, 2, 3, 4].map Value.int ∧ got "B" h = [5, 6, 7, 8, 9].map Value.int :=
  ⟨((exec (newQueue 5 0) [] scenarioA).get scenarioA_runs).1,
    ((exec (newQueue 5 0) [] scenarioA).get scenarioA_runs).2,
    (Option.some_get scenarioA_runs).symm,
    (C1_per_key_fifo 5 0 scenarioA _ _ (Option.some_get scenarioA_runs).symm).2
      (by decide) (by decide) (by decide) (by decide)⟩

theorem exec_get {q : Queue} {h : Hist} {tr : List Event} (h0 : (exec q h tr).isSome = true) :
    exec q h tr = some (((exec q h tr).get h0).1, ((exec q h tr).get h0).2) :=
  (Option.some_get h0).symm

/-- C2: per-key mutual exclusion.  In every execution in which `Done` is
called at most once on each item and only on items obtained from `Get`, for
every capacity and every key `K`, at most one item of `K` is in flight: held
by the forwarding loop, in the shared output, or returned by `Get` and not
acknowledged. -/
theorem C2_mutual_exclusion (N M : Nat) (tr : List Event) (q : Queue) (h : Hist)
    (hx : exec (newQueue N M) [] tr = some (q, h)) (hd : Disciplined h) (K : PartitionKey) :
    inFlight K q h ≤ 1 :=
  inFlight_le_one (Inv.reach hx) hd K

/-- In `oneInFlight` the caller keeps its obligation and one item of "A" is in flight. -/
theorem C2_mutual_exclusion_witness :
    ∃ q h, exec (newQueue 20 0) [] oneInFlight = some (q, h) ∧ Disciplined h ∧
      inFlight "A" q h = 1 ∧ inFlight "A" q h ≤ 1 :=
  ⟨_, _, exec_get (by decide), by decide, by decide,
    C2_mutual_exclusion 20 0 oneInFlight _ _ (exec_get (by decide)) (by decide) "A"⟩

/-- Against C9 as stated: after `heldByLoop` the accepted item is held by the
forwarding loop, so it is neither in the pending buffer, nor in the shared
output, nor returned by `Get`; and after `droppedByLoop` the loop has returned
and the item is nowhere. -/
theorem C9_counterexample :
    (∃ q h, exec (newQueue 1 0) [] heldByLoop = some (q, h) ∧
      acceptedItems "a" h = [item "a" 1] ∧ gotItems "a" h = [] ∧ q.buffer = [] ∧
      q.parts "a" = some ⟨1, [], 1, Loop.Deliver (item "a" 1)⟩) ∧
    (∃ q h, exec (newQueue 1 0) [] droppedByLoop = some (q, h) ∧
      acceptedItems "a" h = [item "a" 1] ∧ gotItems "a" h = [] ∧ q.buffer = [] ∧
      q.parts "a" = some ⟨1, [], 1, Loop.Stopped⟩) :=
  ⟨⟨_, _, exec_get (by decide), by decide, by decide, by decide, by decide⟩,
    ⟨_, _, exec_get (by decide), by decide, by decide, by decide, by decide⟩⟩

/-- C10: `Done` is not idempotent.  In `doubleDone`, `Done` is called twice on
one delivered item of "K" while two more are pending, and afterwards two
different items of "K" have been returned by `Get` and neither is
acknowledged.  Conversely, in every execution in which the caller keeps its
obligation, the gate of every unacknowledged item holds its single token and
`Done` on that item returns without blocking. -/
theorem C10_done_not_idempotent :
    (∃ q h, exec (newQueue 3 0) [] doubleDone = some (q, h) ∧
      doubleDone.count (Event.Done (item "K" 1)) = 2 ∧
      gotItems "K" h = [item "K" 1, item "K" 2, item "K" 3] ∧
      unacked h = [item "K" 2, item "K" 3] ∧ inFlight "K" q h = 2 ∧ ¬ Disciplined h) ∧
    (∀ (N M : Nat) (tr : List Event) (q : Queue) (h : Hist),
      exec (newQueue N M) [] tr = some (q, h) → Disciplined h → ∀ i ∈ unacked h,
        (∃ p, i.p = some i.Key ∧ q.parts i.Key = some p ∧ p.inflight = 1) ∧
        ∃ q2, i.Done q = some q2) := by
  refine ⟨⟨_, _, exec_get (by decide), by decide, by decide, by decide, by decide, by decide⟩,
    fun N M tr q h hx hd i hi => ?_⟩
  obtain ⟨h1, p, h2, h3⟩ := token_present (Inv.reach hx) hd i hi
  refine ⟨⟨p, h1, h2, h3⟩, ?_⟩
  simp [Item.Done, h1, h2, partition.decrementInflight, h3]

/-- In `oneInFlight` the item returned by `Get` can be acknowledged at once. -/
theorem C10_done_not_idempotent_witness :
    ∃ q h, exec (newQueue 20 0) [] oneInFlight = some (q, h) ∧ Disciplined h ∧
      item "A" 0 ∈ unacked h ∧ ∃ q2, (item "A" 0).Done q = some q2 :=
  ⟨_, _, exec_get (by decide), by decide, by decide,
    (C10_done_not_idempotent.2 20 0 oneInFlight _ _ (exec_get (by decide)) (by decide)
      (item "A" 0) (by decide)).2⟩

/-! ## Running events one by one -/

theorem exec_append (q : Queue) (h : Hist) (t1 t2 : List Event) :
    exec q h (t1 ++ t2) = (exec q h t1).bind (fun r => exec r.1 r.2 t2) := by
  induction t1 generalizing q h with
  | nil => rfl
  | cons e es ih =>
    simp only [List.cons_append, exec]
    cases step q e with
    | none => rfl
    | some r => exact ih r.1 _

theorem exec_events {tr : List Event} {q q2 : Queue} {h h2 : Hist}
    (hx : exec q h tr = some (q2, h2)) : h2.map Prod.fst = h.map Prod.fst ++ tr := by
  induction tr generalizing q h with
  | nil =>
    simp only [exec, Option.some.injEq, Prod.mk.injEq] at hx
    obtain ⟨_, rfl⟩ := hx; simp
  | cons e es ih =>
    simp only [exec] at hx
    split at hx
    · cases hx
    · rw [ih hx]; simp

theorem step_run {q : Queue} {k : PartitionKey} {p p2 : partition} {out : List Item} {c : Case}
    (hp : q.parts k = some p) (hr : p.run q.ctx q.buffer q.bufferCap c = some (p2, out)) :
    step q (Event.run k c) = some ({ q.setPart k p2 with buffer := out }, Ret.unit) := by
  simp [step, Queue.run, hp, hr]

theorem step_put {q : Queue} {k : PartitionKey} {v : Value} {p p2 : partition} {ctx : Context}
    {c : Case} {err : Option Error} (hp : q.parts k = some p)
    (hr : p.put ctx c ⟨k, v, some k⟩ = some (p2, err)) :
    step q (Event.Put ctx c k v) = some (q.setPart k p2, Ret.putRet err) := by
  simp [step, Queue.Put, Queue.getOrCreatePartition, hp, hr]

theorem step_create {q : Queue} {k : PartitionKey} (hp : q.parts k = none) :
    step q (Event.getOrCreatePartition k) =
      some (q.setPart k (newPartition q.partCap), Ret.unit) := by
  simp [step, Queue.getOrCreatePartition, hp]

/-- As long as the pending buffer has room, `n` calls of `Put` are accepted one after the other. -/
theorem exec_puts (k : PartitionKey) (v : Value) (n : Nat) :
    ∀ (q : Queue) (h : Hist) (p : partition), q.parts k = some p →
      p.buffer.length + n ≤ p.cap →
      ∃ q2 h2, exec q h (List.replicate n (Event.Put Context.live Case.comm k v)) = some (q2, h2) ∧
        q2.parts k = some { p with buffer := p.buffer ++ List.replicate n ⟨k, v, some k⟩ } := by
  induction n with
  | zero => intro q h p hp _; exact ⟨q, h, rfl, by simpa using hp⟩
  | succ n ih =>
    intro q h p hp hn
    have hr : p.put Context.live Case.comm ⟨k, v, some k⟩ =
        some ({ p with buffer := p.buffer ++ [⟨k, v, some k⟩] }, none) := by
      have : p.buffer.length < p.cap := by omega
      simp [partition.put, this]
    obtain ⟨q2, h2, e1, e2⟩ := ih (q.setPart k { p with buffer := p.buffer ++ [⟨k, v, some k⟩] })
      (h ++ [(Event.Put Context.live Case.comm k v, Ret.putRet none)]) _
      (setPart_parts_self _ _ _) (by simp; omega)
    refine ⟨q2, h2, ?_, ?_⟩
    · simp only [List.replicate_succ, exec, step_put hp hr]; exact e1
    · rw [e2]; simp [List.replicate_succ]

theorem fill_runs (N M : Nat) (k : PartitionKey) (v : Value) :
    ∃ q h, exec (newQueue N M) [] (fill N k v) = some (q, h) := by
  by_cases hN : N = 0
  · subst hN
    simp [fill, exec, step, newQueue, New, WithPartitionCapacity, WithBufferCapacity,
      Queue.getOrCreatePartition, Queue.setPart, Queue.run, partition.run, newPartition,
      Queue.Put, partition.put]
  · have hpos : 0 < N := Nat.pos_of_ne_zero hN
    have hpre : ∃ q1 h1, exec (newQueue N M) [] ([Event.getOrCreatePartition k,
        Event.run k Case.comm, Event.Put Context.live Case.comm k v] ++
          [Event.run k Case.comm]) = some (q1, h1) ∧
        q1.parts k = some ⟨N, [], 1, Loop.Deliver ⟨k, v, some k⟩⟩ := by
      simp [exec, step, newQueue, New, WithPartitionCapacity, WithBufferCapacity,
        Queue.getOrCreatePartition, Queue.setPart, Queue.run, partition.run, newPartition,
        Queue.Put, partition.put, hpos]
    obtain ⟨q1, h1, e1, e2⟩ := hpre
    obtain ⟨q2, h2, e3, _⟩ := exec_puts k v N q1 h1 _ e2 (by simp)
    refine ⟨q2, h2, ?_⟩
    simp only [fill, hN, if_false]
    rw [exec_append, e1]
    exact e3

/-- What `Put` returns, by the case its `select` takes. -/
theorem put_ret {q q2 : Queue} {ctx : Context} {c : Case} {k : PartitionKey} {v : Value}
    {err : Option Error} (hs : q.Put ctx c k v = some (q2, err)) :
    (c = Case.comm → err = none) ∧
      (c = Case.ctxDone → ctx.Done = true ∧ err = ctx.err ∧ ∃ e, err = some e) := by
  unfold Queue.Put at hs
  simp only at hs
  split at hs
  · cases hs
  · rename_i p2 e2 hput
    simp only [Option.some.injEq, Prod.mk.injEq] at hs
    obtain ⟨_, rfl⟩ := hs
    unfold partition.put at hput
    cases c with
    | ctxDone =>
      simp only at hput
      split at hput
      · rename_i hdone
        simp only [Option.some.injEq, Prod.mk.injEq] at hput
        refine ⟨fun hc => Case.noConfusion hc, fun _ => ⟨hdone, hput.2.symm, ?_⟩⟩
        rw [← hput.2]
        cases he : ctx.err with
        | none => simp [Context.Done, he] at hdone
        | some e => exact ⟨e, rfl⟩
      · cases hput
    | comm =>
      refine ⟨fun _ => ?_, fun hc => Case.noConfusion hc⟩
      simp only at hput
      split at hput
      · simp only [Option.some.injEq, Prod.mk.injEq] at hput; exact hput.2.symm
      · split at hput
        · simp only [Option.some.injEq, Prod.mk.injEq] at hput; exact hput.2.symm
        · cases hput

/-- Every send of `Put` that happens in an execution adds one accepted item. -/
theorem exec_accepted_length (K : PartitionKey) {tr : List Event} {q q2 : Queue} {h h2 : Hist}
    (hx : exec q h tr = some (q2, h2)) :
    (acceptedItems K h2).length = (acceptedItems K h).length + tr.countP (Event.isSend K) := by
  induction tr generalizing q h with
  | nil =>
    simp only [exec, Option.some.injEq, Prod.mk.injEq] at hx
    obtain ⟨_, rfl⟩ := hx; simp
  | cons e es ih =>
    simp only [exec] at hx
    split at hx
    · cases hx
    · rename_i q3 r hstep
      rw [ih hx, acceptedItems_snoc, List.countP_cons]
      have : ((Entry.accepted K (e, r)).toList).length = if Event.isSend K e = true then 1 else 0 := by
        cases e with
        | Put ctx c k v =>
          simp only [step] at hstep
          split at hstep
          · cases hstep
          · rename_i q4 err hput
            simp only [Option.some.injEq, Prod.mk.injEq] at hstep
            obtain ⟨_, rfl⟩ := hstep
            have hr := put_ret hput
            cases c with
            | comm =>
              rw [hr.1 rfl]
              by_cases hk : k = K <;> simp [Entry.accepted, Event.isSend, hk]
            | ctxDone =>
              obtain ⟨_, _, e, he⟩ := hr.2 rfl
              rw [he]; simp [Entry.accepted, Event.isSend]
        | Get ctx c src => cases r <;> simp [Entry.accepted, Event.isSend]
        | Done i => cases r <;> simp [Entry.accepted, Event.isSend]
        | run k c => cases r <;> simp [Entry.accepted, Event.isSend]
        | getOrCreatePartition k => cases r <;> simp [Entry.accepted, Event.isSend]
        | cancel => cases r <;> simp [Entry.accepted, Event.isSend]
      simp only [List.length_append, this]
      omega

theorem NoGet.of_events {N M : Nat} {tr : List Event} {q : Queue} {h : Hist}
    (hx : exec (newQueue N M) [] tr = some (q, h))
    (ht : ∀ e ∈ tr, e.isGet = false) : NoGet h := by
  intro x hxm
  have := exec_events hx
  simp only [List.map_nil, List.nil_append] at this
  exact ht x.1 (this ▸ List.mem_map_of_mem _ hxm)

theorem Disciplined.of_noDone (h : Hist) (hn : ∀ x ∈ h, x.1.isDone = false) :
    Disciplined h := by
  induction h using List.reverseRecOn with
  | nil => rfl
  | append_singleton h x ih =>
    rw [Disciplined_snoc]
    refine ⟨ih (fun y hy => hn y (List.mem_append_left _ hy)), fun i hi => ?_⟩
    have := hn x (by simp)
    rw [hi] at this; cases this

theorem Disciplined.of_trace {N M : Nat} {tr : List Event} {q : Queue} {h : Hist}
    (hx : exec (newQueue N M) [] tr = some (q, h))
    (ht : ∀ e ∈ tr, e.isDone = false) : Disciplined h := by
  refine Disciplined.of_noDone h (fun x hxm => ?_)
  have := exec_events hx
  simp only [List.map_nil, List.nil_append] at this
  exact ht x.1 (this ▸ List.mem_map_of_mem _ hxm)

/-- Without `Get` a caller has no item with a partition to acknowledge. -/
theorem Disciplined.of_noGet (h : Hist) (hn : NoGet h) (ho : Obtained h) : Disciplined h := by
  have key : ∀ h : Hist, NoGet h → Obtained h →
      Disciplined h ∧ (h.foldl obtStep ([], true)).1 = [] := by
    intro h
    induction h using List.reverseRecOn with
    | nil => intro _ _; exact ⟨rfl, rfl⟩
    | append_singleton h x ih =>
      intro hn ho
      have hn2 : NoGet h := fun y hy => hn y (List.mem_append_left _ hy)
      have hx := hn x (by simp)
      simp only [Obtained, List.foldl_append, List.foldl_cons, List.foldl_nil] at ho
      have ho2 : Obtained h := by
        obtain ⟨e, r⟩ := x
        cases e with
        | Get ctx c src => cases hx
        | Done i =>
          simp only [obtStep, Bool.and_eq_true] at ho
          exact ho.1
        | Put ctx c k v => cases r <;> exact ho
        | run k c => cases r <;> exact ho
        | getOrCreatePartition k => cases r <;> exact ho
        | cancel => cases r <;> exact ho
      obtain ⟨i1, i2⟩ := ih hn2 ho2
      rw [Disciplined_snoc]
      simp only [List.foldl_append, List.foldl_cons, List.foldl_nil]
      obtain ⟨e, r⟩ := x
      cases e with
      | Get ctx c src => cases hx
      | Done i =>
        refine ⟨⟨i1, fun j hj => ?_⟩, ?_⟩
        · cases hj
          simp only [obtStep, i2, Bool.and_eq_true, Bool.or_eq_true, Option.isNone_iff_eq_none,
            decide_eq_true_eq, List.not_mem_nil, or_false] at ho
          exact Or.inl ho.2
        · simpa [obtStep] using i2
      | Put ctx c k v =>
        exact ⟨⟨i1, fun j hj => by cases hj⟩, by cases r <;> simpa [obtStep] using i2⟩
      | run k c =>
        exact ⟨⟨i1, fun j hj => by cases hj⟩, by cases r <;> simpa [obtStep] using i2⟩
      | getOrCreatePartition k =>
        exact ⟨⟨i1, fun j hj => by cases hj⟩, by cases r <;> simpa [obtStep] using i2⟩
      | cancel =>
        exact ⟨⟨i1, fun j hj => by cases hj⟩, by cases r <;> simpa [obtStep] using i2⟩
  exact (key h hn ho).1

theorem Obtained.no_done (h : Hist) (hn : ∀ x ∈ h, x.1.isDone = false) : Obtained h := by
  induction h using List.reverseRecOn with
  | nil => rfl
  | append_singleton h x ih =>
    have i1 := ih (fun y hy => hn y (List.mem_append_left _ hy))
    have hx := hn x (by simp)
    simp only [Obtained, List.foldl_append, List.foldl_cons, List.foldl_nil]
    obtain ⟨e, r⟩ := x
    cases e with
    | Done i => cases hx
    | Get ctx c src =>
      cases r with
      | getRet oi err => cases oi <;> simpa [obtStep] using i1
      | putRet err => simpa [obtStep] using i1
      | unit => simpa [obtStep] using i1
    | Put ctx c k v => cases r <;> simpa [obtStep] using i1
    | run k c => cases r <;> simpa [obtStep] using i1
    | getOrCreatePartition k => cases r <;> simpa [obtStep] using i1
    | cancel => cases r <;> simpa [obtStep] using i1

theorem Obtained.no_done_trace {N M : Nat} {tr : List Event} {q : Queue} {h : Hist}
    (hx : exec (newQueue N M) [] tr = some (q, h))
    (ht : ∀ e ∈ tr, e.isDone = false) : Obtained h := by
  refine Obtained.no_done h (fun x hxm => ?_)
  have := exec_events hx
  simp only [List.map_nil, List.nil_append] at this
  exact ht x.1 (this ▸ List.mem_map_of_mem _ hxm)

theorem fill_mem (N : Nat) (k : PartitionKey) (v : Value) :
    ∀ e ∈ fill N k v, e = Event.getOrCreatePartition k ∨ e = Event.run k Case.comm ∨
      e = Event.Put Context.live Case.comm k v := by
  intro e he
  by_cases hN : N = 0 <;> simp [fill, hN, List.mem_replicate] at he <;> tauto

theorem fill_events (N : Nat) (k : PartitionKey) (v : Value) :
    (∀ e ∈ fill N k v, e.isGet = false) ∧
    (∀ e ∈ fill N k v, e.isDone = false) ∧
    (fill N k v).countP (Event.isSend k) = N + 1 := by
  refine ⟨fun e he => ?_, fun e he => ?_, ?_⟩
  · rcases fill_mem N k v e he with rfl | rfl | rfl <;> rfl
  · rcases fill_mem N k v e he with rfl | rfl | rfl <;> rfl
  · by_cases hN : N = 0 <;>
      simp [fill, hN, List.countP_cons, List.countP_append, List.countP_replicate, Event.isSend]

theorem exec_none {q : Queue} {h : Hist} {tr : List Event}
    (h0 : (exec q h tr).isSome = false) : exec q h tr = none := by
  cases hh : exec q h tr with
  | none => rfl
  | some r => rw [hh] at h0; cases h0

theorem put_comm_of_isSome {q : Queue} {ctx : Context} {k : PartitionKey} {v : Value}
    (h0 : (q.Put ctx Case.comm k v).isSome = true) :
    ∃ q2, q.Put ctx Case.comm k v = some (q2, none) := by
  cases hp : q.Put ctx Case.comm k v with
  | none => rw [hp] at h0; cases h0
  | some r =>
    obtain ⟨q2, err⟩ := r
    have := (put_ret hp).1 rfl
    subst this
    exact ⟨q2, rfl⟩

/-- When the send of `Put` is not ready, `Put` can only return the error of its context. -/
theorem put_only_error {q q2 : Queue} {ctx : Context} {c : Case} {k : PartitionKey} {v : Value}
    {err : Option Error} (hb : q.Put ctx Case.comm k v = none)
    (hs : q.Put ctx c k v = some (q2, err)) :
    ctx.Done = true ∧ err = ctx.err ∧ ∃ e, err = some e := by
  cases c with
  | comm => rw [hb] at hs; cases hs
  | ctxDone => exact (put_ret hs).2 rfl

theorem accepted_length (K : PartitionKey) (h : Hist) :
    (accepted K h).length = (acceptedItems K h).length := by
  simp [accepted]

/-- C5: the exact admission bound.  On a queue with partition capacity `N`
and any output capacity, in every execution in which `Get` is never called
(and `Done` only on items a caller can have, `Obtained`), at most `N + 1` calls of
`Put` to one key return `nil`, and once `N + 1` have, every further `Put` to
that key can only return the error of its own context.  The execution
`fill N K v` reaches `N + 1`.  In the execution of `TestPut` (capacities 0) the
first `Put` returns `nil` and the second returns its deadline error, the send
being blocked. -/
theorem C5_admission_bound (N M : Nat) :
    (∀ (tr : List Event) (q : Queue) (h : Hist), exec (newQueue N M) [] tr = some (q, h) →
      NoGet h → Obtained h → ∀ K,
        (accepted K h).length ≤ N + 1 ∧
        ((accepted K h).length = N + 1 →
          ∀ ctx c v q2 err, q.Put ctx c K v = some (q2, err) →
            ctx.Done = true ∧ err = ctx.err ∧ ∃ e, err = some e)) ∧
    (∀ K v, ∃ q h, exec (newQueue N M) [] (fill N K v) = some (q, h) ∧ NoGet h ∧
      Obtained h ∧ (accepted K h).length = N + 1) ∧
    (∃ q h, exec (newQueue 0 0) [] testPut = some (q, h) ∧ NoGet h ∧
      returns h = [Ret.unit, Ret.unit, Ret.putRet none,
        Ret.putRet (some Error.DeadlineExceeded)] ∧
      exec (newQueue 0 0) [] testPutSend = none) := by
  refine ⟨fun tr q h hx hn ho K => ?_, fun K v => ?_, ?_⟩
  · have hI := Inv.reach hx
    have hd := Disciplined.of_noGet h hn ho
    rw [accepted_length]
    refine ⟨admitted_le hI hn hd K, fun hfull ctx c v q2 err hs => ?_⟩
    exact put_only_error (put_blocked hI hn hd K hfull ctx v) hs
  · obtain ⟨q, h, hx⟩ := fill_runs N M K v
    obtain ⟨e1, e2, e3⟩ := fill_events N K v
    refine ⟨q, h, hx, NoGet.of_events hx e1, Obtained.no_done_trace hx e2, ?_⟩
    rw [accepted_length, exec_accepted_length K hx, e3]
    simp [acceptedItems]
  · exact ⟨_, _, exec_get (by decide), by decide, by decide, exec_none (by decide)⟩

/-- In the execution of `TestPut` one `Put` was accepted with capacity 0, and
the next `Put` returns the error of its expired context. -/
theorem C5_admission_bound_witness :
    ∃ q h, exec (newQueue 0 0) [] (testPut.take 3) = some (q, h) ∧ NoGet h ∧ Obtained h ∧
      (accepted "a" h).length = 0 + 1 ∧
      ∀ q2 err, q.Put Context.expired Case.ctxDone "a" (Value.str "a") = some (q2, err) →
        Context.expired.Done = true ∧ err = Context.expired.err ∧ ∃ e, err = some e :=
  ⟨_, _, exec_get (by decide), by decide, by decide, by decide,
    fun q2 err => ((C5_admission_bound 0 0).1 (testPut.take 3) _ _ (exec_get (by decide))
      (by decide) (by decide) "a").2 (by decide) Context.expired Case.ctxDone (Value.str "a")
      q2 err⟩

/-- Against C4 as stated: with partition capacity `C = 0`, after 0 accepted
calls of `Put` and no `Get`, the first `Put` is accepted; with `C = 1`, after 1
accepted `Put` and no `Get`, the second `Put` is accepted. -/
theorem C4_counterexample :
    (∃ q h, exec (newQueue 0 0) [] loopWaiting = some (q, h) ∧ NoGet h ∧
      (accepted "a" h).length = 0 ∧
      ∃ q2, q.Put Context.live Case.comm "a" (Value.int 1) = some (q2, none)) ∧
    (∃ q h, exec (newQueue 1 0) [] loopHolding = some (q, h) ∧ NoGet h ∧
      (accepted "a" h).length = 1 ∧
      ∃ q2, q.Put Context.live Case.comm "a" (Value.int 2) = some (q2, none)) :=
  ⟨⟨_, _, exec_get (by decide), by decide, by decide, put_comm_of_isSome (by decide)⟩,
    ⟨_, _, exec_get (by decide), by decide, by decide, put_comm_of_isSome (by decide)⟩⟩

/-- C4, amended: backpressure sets in one `Put` later than the spec states.
For every partition capacity `N`, after `N + 1` calls of `Put` to the same key
have been accepted and no `Get` has been called (and `Done` only on items a
caller can have, `Obtained`), the send of the next `Put` to that key is blocked and the call can only return the error of its own context;
and in every reachable state a `Put` to a key is accepted when its pending
buffer holds fewer than `N` items or, with `N = 0`, when its loop waits for an
item. -/
theorem C4_backpressure (N M : Nat) (tr : List Event) (q : Queue) (h : Hist)
    (hx : exec (newQueue N M) [] tr = some (q, h)) (K : PartitionKey) :
    (NoGet h → Obtained h → (accepted K h).length = N + 1 →
      (∀ ctx v, q.Put ctx Case.comm K v = none) ∧
      ∀ ctx c v q2 err, q.Put ctx c K v = some (q2, err) →
        ctx.Done = true ∧ err = ctx.err ∧ ∃ e, err = some e) ∧
    (∀ p ctx v, q.parts K = some p →
      p.buffer.length < N ∨ (N = 0 ∧ p.pc = Loop.AwaitItem) →
      ∃ q2, q.Put ctx Case.comm K v = some (q2, none)) := by
  have hI := Inv.reach hx
  refine ⟨fun hn ho hfull => ?_, fun p ctx v hp hroom => ?_⟩
  · have hd := Disciplined.of_noGet h hn ho
    rw [accepted_length] at hfull
    exact ⟨fun ctx v => put_blocked hI hn hd K hfull ctx v,
      fun ctx c v q2 err hs => put_only_error (put_blocked hI hn hd K hfull ctx v) hs⟩
  · have hc := (hI.parts K p hp).cap
    refine put_comm_of_isSome ?_
    rcases hroom with hroom | ⟨hz, hpc⟩
    · simp [Queue.Put, Queue.getOrCreatePartition, hp, partition.put, hc, hroom]
    · have hb : p.buffer = [] := by
        have := (hI.parts K p hp).room
        exact List.length_eq_zero.1 (by omega)
      simp [Queue.Put, Queue.getOrCreatePartition, hp, partition.put, hc, hz, hb, hpc]

/-- With capacity 1, after two accepted calls of `Put` and no `Get`, the third is blocked. -/
theorem C4_backpressure_witness :
    ∃ q h, exec (newQueue 1 0) [] (fill 1 "a" (Value.int 1)) = some (q, h) ∧ NoGet h ∧
      Obtained h ∧ (accepted "a" h).length = 1 + 1 ∧
      ∀ ctx v, q.Put ctx Case.comm "a" v = none :=
  ⟨_, _, exec_get (by decide), by decide, by decide, by decide,
    ((C4_backpressure 1 0 (fill 1 "a" (Value.int 1)) _ _ (exec_get (by decide)) "a").1
      (by decide) (by decide) (by decide)).1⟩

/-! ## What `Get` and `Put` return -/

/-- What `Get` returns, by the case its `select` takes. -/
theorem get_ret {q q2 : Queue} {ctx : Context} {c : Case} {src : PartitionKey}
    {oi : Option Item} {err : Option Error} (hs : q.Get ctx c src = some (q2, oi, err)) :
    (c = Case.ctxDone → ctx.Done = true ∧ oi = none ∧ err = ctx.err ∧ (∃ e, err = some e) ∧
      q2.buffer = q.buffer ∧ q2.parts = q.parts) ∧
    (c = Case.comm → err = none ∧ ∃ i, oi = some i ∧
      ((q.buffer = i :: q2.buffer ∧ q2.parts = q.parts) ∨
        (q.buffer = [] ∧ q2.buffer = [] ∧ q.bufferCap = 0 ∧
          ∃ p, q.parts src = some p ∧ p.pc = Loop.Deliver i ∧
            q2.parts src = some { p with pc := Loop.AcquireSlot } ∧
            ∀ K, K ≠ src → q2.parts K = q.parts K))) := by
  unfold Queue.Get at hs
  cases c with
  | ctxDone =>
    refine ⟨fun _ => ?_, fun hc => Case.noConfusion hc⟩
    simp only at hs
    split at hs
    · rename_i hdone
      simp only [Option.some.injEq, Prod.mk.injEq] at hs
      obtain ⟨rfl, rfl, rfl⟩ := hs
      refine ⟨hdone, rfl, rfl, ?_, rfl, rfl⟩
      cases he : ctx.err with
      | none => simp [Context.Done, he] at hdone
      | some e => exact ⟨e, rfl⟩
    · cases hs
  | comm =>
    refine ⟨fun hc => Case.noConfusion hc, fun _ => ?_⟩
    simp only at hs
    split at hs
    · rename_i i rest hbuf
      simp only [Option.some.injEq, Prod.mk.injEq] at hs
      obtain ⟨rfl, rfl, rfl⟩ := hs
      exact ⟨rfl, i, rfl, Or.inl ⟨hbuf, rfl⟩⟩
    · rename_i hbuf
      split at hs
      · rename_i hcap
        split at hs
        · cases hs
        · rename_i p hp
          split at hs
          · rename_i i hpc
            simp only [Option.some.injEq, Prod.mk.injEq] at hs
            obtain ⟨rfl, rfl, rfl⟩ := hs
            exact ⟨rfl, i, rfl, Or.inr ⟨hbuf, hbuf, hcap, p, hp, hpc, by simp,
              fun K hK => setPart_parts_ne _ _ _ _ hK⟩⟩
          · cases hs
      · cases hs

/-- An item `Get` returns was accepted by a `Put` under its key. -/
theorem get_item_accepted {N M : Nat} {q q2 : Queue} {h : Hist} (hI : Inv N M q h)
    {ctx : Context} {c : Case} {src : PartitionKey} {i : Item} {err : Option Error}
    (hs : q.Get ctx c src = some (q2, some i, err)) : i ∈ acceptedItems i.Key h := by
  cases c with
  | ctxDone => obtain ⟨_, h2, _⟩ := (get_ret hs).1 rfl; cases h2
  | comm =>
    obtain ⟨_, j, hj, hcase⟩ := (get_ret hs).2 rfl
    cases hj
    rcases hcase with ⟨hbuf, _⟩ | ⟨_, _, _, p, hp, hpc, _⟩
    · have hmem : i ∈ outOf i.Key q := by simp [outOf, hbuf]
      cases hk : q.parts i.Key with
      | none => rw [(hI.absent _ hk).2.2.1] at hmem; cases hmem
      | some p =>
        obtain ⟨_, _, _, _, mid, c5, _, _⟩ := hI.parts _ p hk
        rw [c5]; simp [hmem]
    · obtain ⟨_, _, _, _, mid, c5, c6, _⟩ := hI.parts _ p hp
      rw [hpc] at c6
      simp only [MidRel] at c6
      subst c6
      have : i ∈ acceptedItems src h := by rw [c5]; simp
      rw [(acceptedItems_wf _ _ i this).1]; exact this

theorem mem_acceptedKeys {K : PartitionKey} {h : Hist} {i : Item}
    (hi : i ∈ acceptedItems K h) : K ∈ acceptedKeys h := by
  by_contra hK
  have := accepted_nil_of_not_mem K h hK
  simp only [accepted, List.map_eq_nil_iff] at this
  rw [this] at hi; cases hi

theorem gotItems_nil_of_getCount {h : Hist} (hc : getCount h = 0) (K : PartitionKey) :
    gotItems K h = [] := by
  simp only [gotItems, List.filterMap_eq_nil_iff]
  intro x hx
  rcases Entry.got_of_isGot x with ⟨h1, _⟩ | ⟨_, h2⟩
  · have : 0 < getCount h := List.countP_pos_iff.2 ⟨x, hx, h1⟩
    omega
  · exact h2 K

/-- After one accepted `Put` on a live queue with both capacities 0, before
any `Get` returned an item, the loop holds the item. -/
theorem holds_single {q : Queue} {h : Hist} (hI : Inv 0 0 q h) (hl : q.ctx.Done = false)
    (k : PartitionKey) (x : Item) (ha : acceptedItems k h = [x]) (hc : getCount h = 0) :
    q.buffer = [] ∧ q.bufferCap = 0 ∧ ∃ p, q.parts k = some p ∧ p.pc = Loop.Deliver x := by
  have hb : q.buffer = [] := List.length_eq_zero.1 (Nat.le_zero.1 hI.outRoom)
  refine ⟨hb, hI.bufferCap, ?_⟩
  cases hp : q.parts k with
  | none => rw [(hI.absent k hp).1] at ha; cases ha
  | some p =>
    obtain ⟨_, c2, _, _, mid, c5, c6, _⟩ := hI.parts k p hp
    have hbuf : p.buffer = [] := List.length_eq_zero.1 (Nat.le_zero.1 c2)
    have hne := hI.live hl k p hp
    rw [ha, gotItems_nil_of_getCount hc, hbuf] at c5
    simp only [outOf, hb, List.filter_nil, List.nil_append, List.append_nil] at c5
    subst c5
    refine ⟨p, rfl, ?_⟩
    generalize p.pc = pc at c6 hne
    cases pc with
    | AcquireSlot => simp [MidRel] at c6
    | AwaitItem => simp [MidRel] at c6
    | Deliver i => simp only [MidRel, List.cons.injEq, and_true] at c6; rw [c6]
    | Stopped => exact absurd rfl hne

theorem get_of_map {q : Queue} {ctx : Context} {c : Case} {src : PartitionKey}
    {r : Option Item × Option Error} (h0 : (q.Get ctx c src).map Prod.snd = some r) :
    ∃ q2, q.Get ctx c src = some (q2, r) := by
  cases hg : q.Get ctx c src with
  | none => rw [hg] at h0; cases h0
  | some x =>
    rw [hg] at h0
    simp only [Option.map_some', Option.some.injEq] at h0
    exact ⟨x.1, by rw [← h0]⟩

theorem held_key {N M : Nat} {q : Queue} {h : Hist} (hI : Inv N M q h) {src : PartitionKey}
    {p : partition} {i : Item} (hp : q.parts src = some p) (hpc : p.pc = Loop.Deliver i) :
    i.Key = src ∧ src ∈ acceptedKeys h := by
  obtain ⟨_, _, _, _, mid, c5, c6, _⟩ := hI.parts _ p hp
  rw [hpc] at c6
  simp only [MidRel] at c6
  subst c6
  have : i ∈ acceptedItems src h := by rw [c5]; simp
  exact ⟨(acceptedItems_wf _ _ i this).1, mem_acceptedKeys this⟩

theorem getCount_zero_of_gotItems {h : Hist} (hg : ∀ K, gotItems K h = []) : getCount h = 0 := by
  by_contra hc
  have hpos : 0 < getCount h := Nat.pos_of_ne_zero hc
  obtain ⟨x, hx, h1⟩ := List.countP_pos_iff.1 hpos
  rcases Entry.got_of_isGot x with ⟨_, i, h2⟩ | ⟨h3, _⟩
  · have : i ∈ gotItems i.Key h := List.mem_filterMap.2 ⟨x, hx, by rw [h2]; simp⟩
    rw [hg] at this; cases this
  · rw [h3] at h1; cases h1

/-- Against C6 as stated.  After `testGet` an item is available and the
context `Context.expired` has been done since before the item was put: `Get`
with that context can return the item with a `nil` error, and it can return
the error.  After `testGetCancelled` one `Put` was accepted on a queue with
both capacities 0, and `Get` with a live context cannot return. -/
theorem C6_counterexample :
    (∃ q h, exec (newQueue 0 0) [] testGet = some (q, h) ∧ Context.expired.Done = true ∧
      (∃ q2, q.Get Context.expired Case.comm "a" =
        some (q2, some ⟨"a", Value.str "a", some "a"⟩, none)) ∧
      (∃ q2, q.Get Context.expired Case.ctxDone "a" =
        some (q2, none, some Error.DeadlineExceeded))) ∧
    (∃ q h, exec (newQueue 0 0) [] testGetCancelled = some (q, h) ∧
      accepted "a" h = [Value.str "a"] ∧ getCount h = 0 ∧
      ∀ c src, q.Get Context.live c src = none) := by
  refine ⟨⟨_, _, exec_get (by decide), by decide, get_of_map (by decide),
    get_of_map (by decide)⟩, ⟨_, _, exec_get (by decide), by decide, by decide, ?_⟩⟩
  intro c src
  have hI : Inv 0 0 _ _ := Inv.reach (exec_get (by decide : (exec (newQueue 0 0) []
    testGetCancelled).isSome = true))
  generalize hq : ((exec (newQueue 0 0) [] testGetCancelled).get (by decide)).1 = q at hI ⊢
  generalize hh : ((exec (newQueue 0 0) [] testGetCancelled).get (by decide)).2 = h at hI
  have hb : q.buffer = [] := by rw [← hq]; decide
  have hk : acceptedKeys h = ["a"] := by rw [← hh]; decide
  have hp : q.parts "a" = some ⟨0, [], 1, Loop.Stopped⟩ := by rw [← hq]; decide
  cases hg : q.Get Context.live c src with
  | none => rfl
  | some r =>
    obtain ⟨q2, oi, err⟩ := r
    cases c with
    | ctxDone => have := ((get_ret hg).1 rfl).1; cases this
    | comm =>
      obtain ⟨_, i, _, hcase⟩ := (get_ret hg).2 rfl
      rcases hcase with ⟨hbuf, _⟩ | ⟨_, _, _, p, hp2, hpc, _⟩
      · rw [hb] at hbuf; cases hbuf
      · have := (held_key hI hp2 hpc).2
        rw [hk] at this
        simp only [List.mem_singleton] at this
        subst this
        rw [hp] at hp2; cases hp2; cases hpc

/-- C6, amended.  `Get` returns exactly one of an item with a `nil` error or
no item with an error.  It returns an error only when its context is done,
the error is the context's own and nothing is removed; with a live context it
never returns an error; with a done context the error case is ready, and when
an item is available as well the `select` may take either.  It returns an
item only by removing the head of the shared output or, on an unbuffered
output, by receiving the item a loop holds.  On a queue on which no `Put` was
accepted no `Get` returned or can return an item.  After one accepted `Put` on
a queue with both capacities 0 whose queue-wide context is live, a `Get` with
a live context returns that item with a `nil` error. -/
theorem C6_get_results :
    (∀ (q : Queue) (ctx : Context) (c : Case) (src : PartitionKey) (q2 : Queue)
        (oi : Option Item) (err : Option Error), q.Get ctx c src = some (q2, oi, err) →
      ((∃ i, oi = some i ∧ err = none) ∨ (oi = none ∧ ∃ e, err = some e)) ∧
      (err ≠ none → ctx.Done = true ∧ err = ctx.err ∧ q2.buffer = q.buffer ∧
        q2.parts = q.parts) ∧
      (ctx.Done = false → err = none) ∧
      (∀ i, oi = some i → q.buffer = i :: q2.buffer ∨
        (q.buffer = [] ∧ q.bufferCap = 0 ∧ ∃ p, q.parts src = some p ∧
          p.pc = Loop.Deliver i))) ∧
    (∀ (q : Queue) (ctx : Context) (src : PartitionKey), ctx.Done = true →
      q.Get ctx Case.ctxDone src = some (q, none, ctx.err)) ∧
    (∀ (q : Queue) (ctx : Context) (src : PartitionKey) (i : Item) (rest : List Item),
      q.buffer = i :: rest →
      ∃ q2, q.Get ctx Case.comm src = some (q2, some i, none) ∧ q2.buffer = rest) ∧
    (∀ (N M : Nat) (tr : List Event) (q : Queue) (h : Hist),
      exec (newQueue N M) [] tr = some (q, h) → acceptedKeys h = [] →
      getCount h = 0 ∧ ∀ ctx src, q.Get ctx Case.comm src = none) ∧
    (∀ (tr : List Event) (q : Queue) (h : Hist) (k : PartitionKey) (v : Value),
      exec (newQueue 0 0) [] tr = some (q, h) → q.ctx.Done = false →
      acceptedKeys h = [k] → accepted k h = [v] → getCount h = 0 →
      (∃ q2, q.Get Context.live Case.comm k = some (q2, some ⟨k, v, some k⟩, none)) ∧
      ∀ c src q2 oi err, q.Get Context.live c src = some (q2, oi, err) →
        oi = some ⟨k, v, some k⟩ ∧ err = none) := by
  refine ⟨?_, ?_, ?_, ?_, ?_⟩
  · intro q ctx c src q2 oi err hs
    cases c with
    | ctxDone =>
      obtain ⟨h1, h2, h3, h4, h5, h6⟩ := (get_ret hs).1 rfl
      refine ⟨Or.inr ⟨h2, h4⟩, fun _ => ⟨h1, h3, h5, h6⟩, fun hl => ?_, fun i hi => ?_⟩
      · rw [h1] at hl; cases hl
      · rw [h2] at hi; cases hi
    | comm =>
      obtain ⟨h1, i, h2, h3⟩ := (get_ret hs).2 rfl
      refine ⟨Or.inl ⟨i, h2, h1⟩, fun hne => absurd h1 hne, fun _ => h1, fun j hj => ?_⟩
      rw [h2] at hj; cases hj
      rcases h3 with ⟨h4, _⟩ | ⟨h4, _, h5, p, h6, h7, _⟩
      · exact Or.inl h4
      · exact Or.inr ⟨h4, h5, p, h6, h7⟩
  · intro q ctx src hd
    simp [Queue.Get, hd]
  · intro q ctx src i rest hb
    exact ⟨{ q with buffer := rest }, by simp [Queue.Get, hb], rfl⟩
  · intro N M tr q h hx hk
    have hI := Inv.reach hx
    have ha : ∀ K, acceptedItems K h = [] := by
      intro K
      cases hl : acceptedItems K h with
      | nil => rfl
      | cons i l =>
        have : K ∈ acceptedKeys h := mem_acceptedKeys (i := i) (by rw [hl]; simp)
        rw [hk] at this; cases this
    refine ⟨getCount_zero_of_gotItems (fun K => ?_), fun ctx src => ?_⟩
    · have := gotItems_initial hI K
      rw [ha K] at this
      exact List.prefix_nil.1 this
    · cases hg : q.Get ctx Case.comm src with
      | none => rfl
      | some r =>
        obtain ⟨q2, oi, err⟩ := r
        obtain ⟨_, i, hi, _⟩ := (get_ret hg).2 rfl
        subst hi
        have := get_item_accepted hI hg
        rw [ha] at this; cases this
  · intro tr q h k v hx hl hk hv hc
    have hI := Inv.reach hx
    have ha : acceptedItems k h = [⟨k, v, some k⟩] := by
      simp only [accepted] at hv
      cases hl2 : acceptedItems k h with
      | nil => rw [hl2] at hv; cases hv
      | cons i l =>
        rw [hl2] at hv
        simp only [List.map_cons, List.cons.injEq, List.map_eq_nil_iff] at hv
        have hw := acceptedItems_wf k h i (by rw [hl2]; simp)
        rw [hv.2]
        congr
        obtain ⟨a, b, c⟩ := i
        simp only at hv hw
        rw [hw.1, hw.2, hv.1]
    obtain ⟨hb, hcap, p, hp, hpc⟩ := holds_single hI hl k _ ha hc
    refine ⟨⟨q.setPart k { p with pc := Loop.AcquireSlot },
      by simp [Queue.Get, hb, hcap, hp, hpc]⟩, fun c src q2 oi err hs => ?_⟩
    cases c with
    | ctxDone => have := ((get_ret hs).1 rfl).1; cases this
    | comm =>
      obtain ⟨h1, i, h2, _⟩ := (get_ret hs).2 rfl
      subst h2
      have hi := get_item_accepted hI hs
      have hik : i.Key ∈ acceptedKeys h := mem_acceptedKeys hi
      rw [hk] at hik
      simp only [List.mem_singleton] at hik
      rw [hik, ha] at hi
      simp only [List.mem_singleton] at hi
      exact ⟨by rw [hi], h1⟩

/-- After `testGet`, the execution of `TestGet`, `Get` with a live context returns the item. -/
theorem C6_get_results_witness :
    ∃ q h, exec (newQueue 0 0) [] testGet = some (q, h) ∧ q.ctx.Done = false ∧
      acceptedKeys h = ["a"] ∧ accepted "a" h = [Value.str "a"] ∧ getCount h = 0 ∧
      ∃ q2, q.Get Context.live Case.comm "a" =
        some (q2, some ⟨"a", Value.str "a", some "a"⟩, none) :=
  ⟨_, _, exec_get (by decide), by decide, by decide, by decide, by decide,
    (C6_get_results.2.2.2.2 testGet _ _ "a" (Value.str "a") (exec_get (by decide)) (by decide)
      (by decide) (by decide) (by decide)).1⟩

theorem getOrCreate_frame (q : Queue) (k : PartitionKey) :
    (q.getOrCreatePartition k).1.buffer = q.buffer ∧
      ∀ K, K ≠ k → (q.getOrCreatePartition k).1.parts K = q.parts K := by
  rcases getOrCreate_spec q k with ⟨_, h2⟩ | ⟨_, _, h3⟩
  · rw [h2]; exact ⟨rfl, fun _ _ => rfl⟩
  · rw [h3]; exact ⟨rfl, fun K hK => setPart_parts_ne _ _ _ _ hK⟩

theorem setPart_same (q : Queue) (k : PartitionKey) (p : partition)
    (hp : q.parts k = some p) : q.setPart k p = q := by
  obtain ⟨a, b, c, parts, d⟩ := q
  simp only [Queue.setPart, Queue.mk.injEq, true_and, and_true]
  funext k2
  by_cases hk : k2 = k
  · subst hk; simp [← hp]
  · simp [hk]

/-- Against C7 as stated.  In `lateSend` the context of `Put` is done before
the call and `Put` returns `nil`, the item being enqueued; from the same queue
`lateError` returns the error.  In `handOff` the partition is unbuffered and
the accepted `Put` leaves the pending buffer empty: the loop holds the item. -/
theorem C7_counterexample :
    (Context.expired.Done = true ∧
      (∃ q h, exec (newQueue 1 0) [] lateSend = some (q, h) ∧
        returns h = [Ret.putRet none] ∧
        q.parts "a" = some ⟨1, [item "a" 1], 0, Loop.AcquireSlot⟩) ∧
      (∃ q h, exec (newQueue 1 0) [] lateError = some (q, h) ∧
        returns h = [Ret.putRet (some Error.DeadlineExceeded)])) ∧
    (∃ q h, exec (newQueue 0 0) [] handOff = some (q, h) ∧
      returns h = [Ret.unit, Ret.unit, Ret.putRet none] ∧
      q.parts "a" = some ⟨0, [], 1, Loop.Deliver (item "a" 1)⟩) :=
  ⟨⟨by decide, ⟨_, _, exec_get (by decide), by decide, by decide⟩,
    ⟨_, _, exec_get (by decide), by decide⟩⟩,
    ⟨_, _, exec_get (by decide), by decide, by decide⟩⟩

/-- C7, amended.  `Put` returns an error only when its context is done, and
the error is the context's own; with a live context it never returns an error;
with a done context the error case is ready, and when the send is ready as
well the `select` may take either.  A `Put` that returns an error leaves the
queue exactly as `getOrCreatePartition` left it: nothing is enqueued, and the
history gains no accepted item; and in every execution an item that `Get`
returns is the item of an accepted `Put`.  A `Put` that returns `nil` has appended exactly one
item carrying the key and the value to the tail of the key's pending buffer
or, on an unbuffered partition, has handed that item to the loop that was
waiting for it; nothing else changes. -/
theorem C7_put_errors (q : Queue) (ctx : Context) (k : PartitionKey) (v : Value) :
    (∀ (c : Case) (q2 : Queue) (err : Option Error), q.Put ctx c k v = some (q2, err) →
      (err ≠ none → ctx.Done = true ∧ err = ctx.err) ∧
      (ctx.Done = false → err = none) ∧
      q2.buffer = q.buffer ∧ (∀ K, K ≠ k → q2.parts K = q.parts K) ∧
      (err ≠ none → q2 = (q.getOrCreatePartition k).1 ∧
        q2.parts k = some (q.getOrCreatePartition k).2 ∧
        ∀ K h, acceptedItems K (h ++ [(Event.Put ctx c k v, Ret.putRet err)]) =
          acceptedItems K h) ∧
      (err = none → ∃ p2, q2.parts k = some p2 ∧
        p2.cap = (q.getOrCreatePartition k).2.cap ∧
        p2.inflight = (q.getOrCreatePartition k).2.inflight ∧
        ((p2.buffer = (q.getOrCreatePartition k).2.buffer ++ [⟨k, v, some k⟩] ∧
            p2.pc = (q.getOrCreatePartition k).2.pc) ∨
          ((q.getOrCreatePartition k).2.cap = 0 ∧
            (q.getOrCreatePartition k).2.pc = Loop.AwaitItem ∧
            p2.buffer = (q.getOrCreatePartition k).2.buffer ∧
            p2.pc = Loop.Deliver ⟨k, v, some k⟩)))) ∧
    (ctx.Done = true → ∃ q2, q.Put ctx Case.ctxDone k v = some (q2, ctx.err)) ∧
    (ctx.Done = false → q.Put ctx Case.ctxDone k v = none) ∧
    (∀ (N M : Nat) (tr : List Event) (q0 : Queue) (h : Hist),
      exec (newQueue N M) [] tr = some (q0, h) →
      ∀ ctx2 c src q2 i err, q0.Get ctx2 c src = some (q2, some i, err) →
        i ∈ acceptedItems i.Key h) := by
  refine ⟨fun c q2 err hs => ?_, fun hd => ?_, fun hd => ?_,
    fun N M tr q0 h hx ctx2 c src q2 i err hg => get_item_accepted (Inv.reach hx) hg⟩
  · have hr := put_ret hs
    have hf := getOrCreate_frame q k
    have hpk := getOrCreate_parts q k
    unfold Queue.Put at hs
    simp only at hs
    generalize (q.getOrCreatePartition k).2 = p at hs hpk ⊢
    generalize (q.getOrCreatePartition k).1 = q1 at hs hf hpk ⊢
    split at hs
    · cases hs
    · rename_i p2 e2 hput
      simp only [Option.some.injEq, Prod.mk.injEq] at hs
      obtain ⟨rfl, rfl⟩ := hs
      refine ⟨fun hne => ?_, fun hl => ?_, hf.1, fun K hK => ?_, fun hne => ?_, fun he => ?_⟩
      · cases c with
        | comm => exact absurd (hr.1 rfl) hne
        | ctxDone => exact ⟨(hr.2 rfl).1, (hr.2 rfl).2.1⟩
      · cases c with
        | comm => exact hr.1 rfl
        | ctxDone => have := (hr.2 rfl).1; rw [hl] at this; cases this
      · rw [setPart_parts_ne _ _ _ _ hK]; exact hf.2 K hK
      · cases c with
        | comm => exact absurd (hr.1 rfl) hne
        | ctxDone =>
          obtain ⟨hdone, _, e, he⟩ := hr.2 rfl
          subst he
          simp only [partition.put, hdone, if_true, Option.some.injEq, Prod.mk.injEq] at hput
          rw [← hput.1]
          exact ⟨setPart_same _ _ _ hpk, setPart_parts_self _ _ _,
            fun K h => (silent_putErr ctx Case.ctxDone k v e).accepted K h⟩
      · subst he
        refine ⟨p2, setPart_parts_self _ _ _, ?_⟩
        cases c with
        | ctxDone => obtain ⟨_, _, e, he⟩ := hr.2 rfl; cases he
        | comm =>
          simp only [partition.put] at hput
          split at hput
          · simp only [Option.some.injEq, Prod.mk.injEq, and_true] at hput
            subst hput
            exact ⟨rfl, rfl, Or.inl ⟨rfl, rfl⟩⟩
          · split at hput
            · rename_i hz
              simp only [Option.some.injEq, Prod.mk.injEq, and_true] at hput
              subst hput
              exact ⟨rfl, rfl, Or.inr ⟨hz.1, hz.2.2, rfl, rfl⟩⟩
            · cases hput
  · exact ⟨(q.getOrCreatePartition k).1.setPart k (q.getOrCreatePartition k).2,
      by simp [Queue.Put, partition.put, hd]⟩
  · simp [Queue.Put, partition.put, hd]

/-- On a fresh queue with partition capacity 1 an accepted `Put` appends its
item to the pending buffer of its key. -/
theorem C7_put_errors_witness :
    ∃ q2, (newQueue 1 0).Put Context.live Case.comm "a" (Value.int 1) = some (q2, none) ∧
      q2.buffer = (newQueue 1 0).buffer ∧ ∃ p2, q2.parts "a" = some p2 ∧
        p2.cap = ((newQueue 1 0).getOrCreatePartition "a").2.cap ∧
        p2.inflight = ((newQueue 1 0).getOrCreatePartition "a").2.inflight ∧
        ((p2.buffer = ((newQueue 1 0).getOrCreatePartition "a").2.buffer ++
              [⟨"a", Value.int 1, some "a"⟩] ∧
            p2.pc = ((newQueue 1 0).getOrCreatePartition "a").2.pc) ∨
          (((newQueue 1 0).getOrCreatePartition "a").2.cap = 0 ∧
            ((newQueue 1 0).getOrCreatePartition "a").2.pc = Loop.AwaitItem ∧
            p2.buffer = ((newQueue 1 0).getOrCreatePartition "a").2.buffer ∧
            p2.pc = Loop.Deliver ⟨"a", Value.int 1, some "a"⟩)) := by
  obtain ⟨q2, hq2⟩ := put_comm_of_isSome (by decide :
    ((newQueue 1 0).Put Context.live Case.comm "a" (Value.int 1)).isSome = true)
  exact ⟨q2, hq2,
    ((C7_put_errors _ Context.live "a" (Value.int 1)).1 Case.comm q2 none hq2).2.2.1,
    ((C7_put_errors _ Context.live "a" (Value.int 1)).1 Case.comm q2 none hq2).2.2.2.2.2 rfl⟩

/-- Against C8 as stated: after the queue-wide context is cancelled a `Put`
with a live context is accepted (partition capacity 1), and a `Get` with a
live context returns an item (output capacity 1). -/
theorem C8_counterexample :
    (∃ q h, exec (newQueue 1 0) [] putAfterCancel = some (q, h) ∧
      returns h = [Ret.unit, Ret.putRet none] ∧ q.ctx.Done = true ∧
      q.parts "a" = some ⟨1, [item "a" 1], 0, Loop.AcquireSlot⟩) ∧
    (∃ q h, exec (newQueue 0 1) [] getAfterCancel = some (q, h) ∧
      returns h = [Ret.unit, Ret.unit, Ret.putRet none, Ret.unit, Ret.unit, Ret.unit,
        Ret.getRet (some (item "a" 1)) none] ∧
      q.ctx.Done = true ∧ q.parts "a" = some ⟨0, [], 1, Loop.Stopped⟩) :=
  ⟨⟨_, _, exec_get (by decide), by decide, by decide, by decide⟩,
    ⟨_, _, exec_get (by decide), by decide, by decide, by decide⟩⟩

/-- A loop that has returned stays so under every event. -/
theorem stopped_stays {q q2 : Queue} {e : Event} {r : Ret} {k : PartitionKey} {p : partition}
    (hs : step q e = some (q2, r)) (hp : q.parts k = some p) (hpc : p.pc = Loop.Stopped) :
    ∃ p2, q2.parts k = some p2 ∧ p2.pc = Loop.Stopped := by
  cases e with
  | Put ctx c k2 v =>
    simp only [step] at hs
    split at hs
    · cases hs
    · rename_i q3 err hput
      simp only [Option.some.injEq, Prod.mk.injEq] at hs
      obtain ⟨rfl, _⟩ := hs
      by_cases hk : k = k2
      · subst hk
        simp only [Queue.Put, Queue.getOrCreatePartition, hp] at hput
        split at hput
        · cases hput
        · rename_i p2 e2 hp2
          simp only [Option.some.injEq, Prod.mk.injEq] at hput
          obtain ⟨rfl, _⟩ := hput
          refine ⟨p2, setPart_parts_self _ _ _, ?_⟩
          unfold partition.put at hp2
          cases c with
          | ctxDone =>
            simp only at hp2
            split at hp2
            · simp only [Option.some.injEq, Prod.mk.injEq] at hp2
              rw [← hp2.1]; exact hpc
            · cases hp2
          | comm =>
            simp only at hp2
            split at hp2
            · simp only [Option.some.injEq, Prod.mk.injEq] at hp2
              rw [← hp2.1]; exact hpc
            · split at hp2
              · rename_i hz
                rw [hpc] at hz
                exact absurd hz.2.2 (by simp)
              · cases hp2
      · have hf := (getOrCreate_frame q k2).2 k hk
        simp only [Queue.Put] at hput
        split at hput
        · cases hput
        · simp only [Option.some.injEq, Prod.mk.injEq] at hput
          obtain ⟨rfl, _⟩ := hput
          exact ⟨p, by rw [setPart_parts_ne _ _ _ _ hk, hf]; exact hp, hpc⟩
  | Get ctx c src =>
    simp only [step] at hs
    split at hs
    · cases hs
    · rename_i q3 oi err hget
      simp only [Option.some.injEq, Prod.mk.injEq] at hs
      obtain ⟨rfl, _⟩ := hs
      cases c with
      | ctxDone =>
        have := ((get_ret hget).1 rfl).2.2.2.2.2
        exact ⟨p, by rw [this]; exact hp, hpc⟩
      | comm =>
        obtain ⟨_, i, _, hcase⟩ := (get_ret hget).2 rfl
        rcases hcase with ⟨_, h2⟩ | ⟨_, _, _, p3, hp3, hpc3, _, hfr⟩
        · exact ⟨p, by rw [h2]; exact hp, hpc⟩
        · by_cases hk : k = src
          · subst hk
            rw [hp] at hp3; cases hp3
            rw [hpc] at hpc3; cases hpc3
          · exact ⟨p, by rw [hfr k hk]; exact hp, hpc⟩
  | Done i =>
    simp only [step] at hs
    split at hs
    · cases hs
    · rename_i q3 hdone
      simp only [Option.some.injEq, Prod.mk.injEq] at hs
      obtain ⟨rfl, _⟩ := hs
      unfold Item.Done at hdone
      split at hdone
      · cases hdone; exact ⟨p, hp, hpc⟩
      · rename_i k2 _
        split at hdone
        · cases hdone
        · rename_i p3 hp3
          split at hdone
          · cases hdone
          · rename_i p4 hdec
            cases hdone
            by_cases hk : k = k2
            · subst hk
              rw [hp] at hp3; cases hp3
              unfold partition.decrementInflight at hdec
              split at hdec
              · cases hdec
                exact ⟨_, setPart_parts_self _ _ _, hpc⟩
              · cases hdec
            · exact ⟨p, by rw [setPart_parts_ne _ _ _ _ hk]; exact hp, hpc⟩
  | run k2 c =>
    simp only [step] at hs
    split at hs
    · cases hs
    · rename_i q3 hrun
      simp only [Option.some.injEq, Prod.mk.injEq] at hs
      obtain ⟨rfl, _⟩ := hs
      by_cases hk : k = k2
      · subst hk
        simp [Queue.run, hp, partition.run, hpc] at hrun
      · unfold Queue.run at hrun
        split at hrun
        · cases hrun
        · split at hrun
          · cases hrun
          · cases hrun
            exact ⟨p, by simp [Queue.setPart, hk, hp], hpc⟩
  | getOrCreatePartition k2 =>
    simp only [step, Option.some.injEq, Prod.mk.injEq] at hs
    obtain ⟨rfl, _⟩ := hs
    by_cases hk : k = k2
    · subst hk
      simp only [Queue.getOrCreatePartition, hp]
      exact ⟨p, rfl, hpc⟩
    · exact ⟨p, by rw [(getOrCreate_frame q k2).2 k hk]; exact hp, hpc⟩
  | cancel =>
    simp only [step, Option.some.injEq, Prod.mk.injEq] at hs
    obtain ⟨rfl, _⟩ := hs
    exact ⟨p, hp, hpc⟩

/-- C8, amended.  Once the queue-wide context is cancelled, every forwarding
loop that has not returned can return at its next `select`, and a loop that
has returned takes no further step and stays returned under every event.
`Put` and `Get` do not look at the queue-wide context: what they return is the
same whatever it is.  With the loop of its key returned, a `Put` is accepted
exactly when the pending buffer has room; with every loop returned, a `Get`
returns an item exactly when the shared output is not empty; otherwise the
call can only return the error of its own context, once that is done. -/
theorem C8_after_cancel (q : Queue) :
    (∀ k p, q.parts k = some p → p.pc ≠ Loop.Stopped → q.ctx.Done = true →
      ∃ q2, q.run k Case.ctxDone = some q2 ∧
        q2.parts k = some { p with pc := Loop.Stopped } ∧ q2.buffer = q.buffer) ∧
    (∀ k p c, q.parts k = some p → p.pc = Loop.Stopped → q.run k c = none) ∧
    (∀ e q2 r k p, step q e = some (q2, r) → q.parts k = some p → p.pc = Loop.Stopped →
      ∃ p2, q2.parts k = some p2 ∧ p2.pc = Loop.Stopped) ∧
    (∀ qctx ctx c k v, (({ q with ctx := qctx } : Queue).Put ctx c k v).map Prod.snd =
      (q.Put ctx c k v).map Prod.snd) ∧
    (∀ qctx ctx c src, (({ q with ctx := qctx } : Queue).Get ctx c src).map Prod.snd =
      (q.Get ctx c src).map Prod.snd) ∧
    (∀ ctx k v p, q.parts k = some p → p.pc = Loop.Stopped →
      ((∃ q2, q.Put ctx Case.comm k v = some (q2, none)) ↔ p.buffer.length < p.cap)) ∧
    ((∀ k p, q.parts k = some p → p.pc = Loop.Stopped) → ∀ ctx src,
      ((∃ q2 i, q.Get ctx Case.comm src = some (q2, some i, none)) ↔ q.buffer ≠ [])) ∧
    (∀ ctx k v p, q.parts k = some p → p.pc = Loop.Stopped → ¬ p.buffer.length < p.cap →
      ∀ c q2 err, q.Put ctx c k v = some (q2, err) →
        ctx.Done = true ∧ err = ctx.err ∧ ∃ e, err = some e) ∧
    ((∀ k p, q.parts k = some p → p.pc = Loop.Stopped) → q.buffer = [] →
      ∀ ctx c src q2 oi err, q.Get ctx c src = some (q2, oi, err) →
        ctx.Done = true ∧ oi = none ∧ err = ctx.err ∧ ∃ e, err = some e) := by
  refine ⟨?_, ?_, fun e q2 r k p hs hp hpc => stopped_stays hs hp hpc, ?_, ?_, ?_, ?_, ?_, ?_⟩
  · intro k p hp hne hd
    refine ⟨{ q.setPart k { p with pc := Loop.Stopped } with buffer := q.buffer }, ?_,
      by simp [Queue.setPart], rfl⟩
    simp only [Queue.run, hp, partition.run]
    generalize p.pc = pc at hne
    cases pc <;> first | exact absurd rfl hne | simp [hd]
  · intro k p c hp hpc
    simp [Queue.run, hp, partition.run, hpc]
  · intro qctx ctx c k v
    simp only [Queue.Put, Queue.getOrCreatePartition]
    cases hp : q.parts k with
    | none =>
      simp only [hp]
      cases (newPartition q.partCap).put ctx c ⟨k, v, some k⟩ <;> rfl
    | some p =>
      simp only [hp]
      cases p.put ctx c ⟨k, v, some k⟩ <;> rfl
  · intro qctx ctx c src
    simp only [Queue.Get]
    cases c with
    | ctxDone => simp only; split <;> rfl
    | comm =>
      simp only
      cases hb : q.buffer with
      | cons i rest => rfl
      | nil =>
        simp only
        split
        · cases hp : q.parts src with
          | none => rfl
          | some p =>
            simp only
            cases hpc : p.pc <;> rfl
        · rfl
  · intro ctx k v p hp hpc
    constructor
    · rintro ⟨q2, hs⟩
      simp only [Queue.Put, Queue.getOrCreatePartition, hp, partition.put] at hs
      by_contra hroom
      simp [hroom, hpc] at hs
    · intro hroom
      exact put_comm_of_isSome (by
        simp [Queue.Put, Queue.getOrCreatePartition, hp, partition.put, hroom])
  · intro hall ctx src
    constructor
    · rintro ⟨q2, i, hs⟩ hb
      obtain ⟨_, j, _, hcase⟩ := (get_ret hs).2 rfl
      rcases hcase with ⟨h1, _⟩ | ⟨_, _, _, p, hp, hpc, _⟩
      · rw [hb] at h1; cases h1
      · rw [hall src p hp] at hpc; cases hpc
    · intro hb
      cases hq : q.buffer with
      | nil => exact absurd hq hb
      | cons i rest => exact ⟨{ q with buffer := rest }, i, by simp [Queue.Get, hq]⟩
  · intro ctx k v p hp hpc hroom c q2 err hs
    refine put_only_error ?_ hs
    simp [Queue.Put, Queue.getOrCreatePartition, hp, partition.put, hroom, hpc]
  · intro hall hb ctx c src q2 oi err hs
    cases c with
    | ctxDone =>
      obtain ⟨h1, h2, h3, h4, _⟩ := (get_ret hs).1 rfl
      exact ⟨h1, h2, h3, h4⟩
    | comm =>
      obtain ⟨_, j, _, hcase⟩ := (get_ret hs).2 rfl
      rcases hcase with ⟨h1, _⟩ | ⟨_, _, _, p, hp, hpc, _⟩
      · rw [hb] at h1; cases h1
      · rw [hall src p hp] at hpc; cases hpc

/-- After cancellation the loop of "a" returns, and a later `Put` leaves it returned. -/
theorem C8_after_cancel_witness :
    ∃ q h q2, exec (newQueue 0 1) [] (getAfterCancel.take 6) = some (q, h) ∧
      step q (Event.getOrCreatePartition "b") = some (q2, Ret.unit) ∧
      q.parts "a" = some ⟨0, [], 1, Loop.Stopped⟩ ∧
      ∃ p2, q2.parts "a" = some p2 ∧ p2.pc = Loop.Stopped :=
  ⟨_, _, _, exec_get (by decide), rfl, by decide,
    (C8_after_cancel _).2.2.1 (Event.getOrCreatePartition "b") _ Ret.unit "a"
      ⟨0, [], 1, Loop.Stopped⟩ rfl (by decide) rfl⟩

theorem step_ctx {B : PartitionKey} {q q2 : Queue} {e : Event} {r : Ret}
    (hs : step q e = some (q2, r))
    (he : e.serves B = true) : q2.ctx = q.ctx := by
  cases e with
  | Put ctx c k v => cases he
  | Get ctx c src =>
    simp only [step] at hs
    split at hs
    · cases hs
    · rename_i q3 oi err hget
      simp only [Option.some.injEq, Prod.mk.injEq] at hs
      obtain ⟨rfl, _⟩ := hs
      unfold Queue.Get at hget
      split at hget
      · split at hget
        · simp only [Option.some.injEq, Prod.mk.injEq] at hget
          rw [← hget.1]
        · cases hget
      · split at hget
        · simp only [Option.some.injEq, Prod.mk.injEq] at hget
          rw [← hget.1]
        · split at hget
          · split at hget
            · cases hget
            · split at hget
              · simp only [Option.some.injEq, Prod.mk.injEq] at hget
                rw [← hget.1]; rfl
              · cases hget
          · cases hget
  | Done i =>
    simp only [step] at hs
    split at hs
    · cases hs
    · rename_i q3 hdone
      simp only [Option.some.injEq, Prod.mk.injEq] at hs
      obtain ⟨rfl, _⟩ := hs
      unfold Item.Done at hdone
      split at hdone
      · cases hdone; rfl
      · split at hdone
        · cases hdone
        · split at hdone
          · cases hdone
          · cases hdone; rfl
  | run k c =>
    simp only [step] at hs
    split at hs
    · cases hs
    · rename_i q3 hrun
      simp only [Option.some.injEq, Prod.mk.injEq] at hs
      obtain ⟨rfl, _⟩ := hs
      unfold Queue.run at hrun
      split at hrun
      · cases hrun
      · split at hrun
        · cases hrun
        · cases hrun; rfl
  | getOrCreatePartition k => cases he
  | cancel => cases he

/-- One event that serves `B` and does not return an item of `B` keeps the state ready. -/
theorem Ready.step {N M : Nat} {A B : PartitionKey} {a x : Item} {rest : List Item}
    {q q2 : Queue} {h : Hist} {e : Event} {r : Ret} (hR : Ready N M A B a x rest q h)
    (hs : partqueue.step q e = some (q2, r)) (he : e.serves B = true)
    (hg : Entry.got B (e, r) = none) : Ready N M A B a x rest q2 (h ++ [(e, r)]) := by
  refine ⟨hR.inv.of_step e r hs, by rw [step_ctx hs he]; exact hR.live, hR.keys, hR.akey,
    ?_, ?_⟩
  · rw [unacked_snoc]
    have ha := hR.ack
    cases e with
    | Put ctx c k v => cases he
    | Get ctx c src =>
      cases r with
      | getRet oi err =>
        cases oi with
        | none => simpa [ackStep] using ha
        | some i => simp [ackStep, ha]
      | putRet err => simpa [ackStep] using ha
      | unit => simpa [ackStep] using ha
    | Done i =>
      simp only [ackStep]
      refine (List.mem_erase_of_ne ?_).2 ha
      intro hai
      simp only [Event.serves, decide_eq_true_eq] at he
      rw [← hai, hR.akey] at he
      exact hR.keys he
    | run k c => cases r <;> simpa [ackStep] using ha
    | getOrCreatePartition k => cases he
    | cancel => cases he
  · rw [acceptedItems_snoc, gotItems_snoc, hg]
    have : Entry.accepted B (e, r) = none := by
      cases e with
      | Put ctx c k v => cases he
      | Get ctx c src => cases r <;> rfl
      | Done i => cases r <;> rfl
      | run k c => cases r <;> rfl
      | getOrCreatePartition k => cases he
      | cancel => cases he
    rw [this]
    simpa using hR.next

/-- An event that keeps the state ready, followed by events that serve `B`. -/
theorem Served.cons {B : PartitionKey} {a x : Item} {q q2 : Queue} {h : Hist} {e : Event}
    {r : Ret} (hs : partqueue.step q e = some (q2, r)) (he : e.serves B = true)
    (hg : Entry.got B (e, r) = none) (hdone : ∀ i, e = Event.Done i → i ∈ gotItems B h)
    (hS : Served B a x q2 (h ++ [(e, r)])) : Served B a x q h := by
  obtain ⟨tr, q3, h3, h1, h2, h6, h4, h5⟩ := hS
  have hgot : gotItems B (h ++ [(e, r)]) = gotItems B h := by rw [gotItems_snoc, hg]; simp
  refine ⟨e :: tr, q3, h3, by simp only [exec, hs]; exact h1, ?_, ?_, ?_, h5⟩
  · intro e2 he2
    rcases List.mem_cons.1 he2 with rfl | he2
    · exact he
    · exact h2 e2 he2
  · intro i hi
    rcases List.mem_cons.1 hi with hi | hi
    · exact hdone i hi.symm
    · rw [← hgot]; exact h6 i hi
  · rw [h4, hgot]

/-- The partition of `B` in a ready state. -/
theorem Ready.part {N M : Nat} {A B : PartitionKey} {a x : Item} {rest : List Item}
    {q : Queue} {h : Hist} (hR : Ready N M A B a x rest q h) :
    ∃ p mid, q.parts B = some p ∧ p.pc ≠ Loop.Stopped ∧ p.inflight ≤ 1 ∧
      x :: rest = outOf B q ++ mid ++ p.buffer ∧ MidRel p.pc mid ∧
      p.inflight ≤ p.pc.slot + (outOf B q).length + (gotItems B h).length := by
  cases hp : q.parts B with
  | none =>
    have h1 := hR.next
    rw [(hR.inv.absent B hp).1, (hR.inv.absent B hp).2.1] at h1
    cases h1
  | some p =>
    obtain ⟨_, _, c3, _, mid, c5, c6, _⟩ := hR.inv.parts B p hp
    have hne := hR.inv.live hR.live B p hp
    refine ⟨p, mid, rfl, hne, c3, ?_, c6, hR.inv.gate B p hp hne⟩
    have h1 := hR.next
    rw [c5, List.append_assoc, List.append_assoc] at h1
    have h2 := List.append_cancel_left h1
    rw [← h2, List.append_assoc]

theorem exec_single {q q2 : Queue} {h : Hist} {e : Event} {r : Ret}
    (hs : step q e = some (q2, r)) : exec q h [e] = some (q2, h ++ [(e, r)]) := by
  simp only [exec, hs]

theorem step_get_head {q : Queue} {j : Item} {l : List Item} (hb : q.buffer = j :: l)
    (src : PartitionKey) :
    step q (Event.Get Context.live Case.comm src) =
      some ({ q with buffer := l }, Ret.getRet (some j) none) := by
  simp [step, Queue.Get, hb]

theorem served_single {B : PartitionKey} {a x : Item} {q q2 : Queue} {h : Hist}
    (hs : step q (Event.Get Context.live Case.comm B) = some (q2, Ret.getRet (some x) none))
    (hx : x.Key = B) (ha : a ∈ unacked h) : Served B a x q h := by
  refine ⟨[Event.Get Context.live Case.comm B], _, _, exec_single hs, ?_, ?_, ?_, ?_⟩
  · intro e he; simp only [List.mem_singleton] at he; subst he; rfl
  · intro i hi; simp at hi
  · simp [gotItems_snoc, Entry.got, hx]
  · simp [unacked_snoc, ackStep, ha]

/-- When `x` is in the shared output, `Get` is called until it returns `x`. -/
theorem served_of_out {N M : Nat} {A B : PartitionKey} {a x : Item} {rest : List Item}
    (n : Nat) : ∀ (q : Queue) (h : Hist), q.buffer.length = n →
      Ready N M A B a x rest q h → outOf B q ≠ [] → Served B a x q h := by
  induction n with
  | zero =>
    intro q h hn _ ho
    have : q.buffer = [] := List.length_eq_zero.1 hn
    simp [outOf, this] at ho
  | succ n ih =>
    intro q h hn hR ho
    cases hb : q.buffer with
    | nil => simp [outOf, hb] at ho
    | cons j l =>
      have hs := step_get_head hb B
      by_cases hj : j.Key = B
      · obtain ⟨p, mid, _, _, _, hflow, _, _⟩ := hR.part
        have hjx : j = x := by
          have : outOf B q = j :: l.filter (fun i => i.Key = B) := by simp [outOf, hb, hj]
          rw [this] at hflow
          simp only [List.cons_append, List.cons.injEq] at hflow
          exact hflow.1.symm
        subst hjx
        exact served_single hs hj hR.ack
      · have hg : Entry.got B (Event.Get Context.live Case.comm B, Ret.getRet (some j) none) =
            none := by simp [Entry.got, hj]
        refine Served.cons hs rfl hg (fun i hi => by cases hi)
          (ih _ _ ?_ (hR.step hs rfl hg) ?_)
        · rw [hb] at hn; simpa using hn
        · have : outOf B q = outOf B { q with buffer := l } := by simp [outOf, hb, hj]
          rw [← this]; exact ho

theorem Ready.xkey {N M : Nat} {A B : PartitionKey} {a x : Item} {rest : List Item}
    {q : Queue} {h : Hist} (hR : Ready N M A B a x rest q h) : x.Key = B :=
  (acceptedItems_wf B h x (by rw [hR.next]; simp)).1

theorem silent_run (k : PartitionKey) (c : Case) : Silent (Event.run k c, Ret.unit) :=
  silent_unit _ (fun _ hi => by cases hi)

/-- The loop of `B` holds `x` and the output has room: the loop sends `x`. -/
theorem served_of_room {N M : Nat} {A B : PartitionKey} {a x : Item} {rest : List Item}
    {q : Queue} {h : Hist} (hR : Ready N M A B a x rest q h) {p : partition}
    (hp : q.parts B = some p) (hpc : p.pc = Loop.Deliver x) (hroom : q.buffer.length < M) :
    Served B a x q h := by
  have hr : p.run q.ctx q.buffer q.bufferCap Case.comm =
      some ({ p with pc := Loop.AcquireSlot }, q.buffer ++ [x]) := by
    simp [partition.run, hpc, hR.inv.bufferCap, hroom]
  have hs := step_run hp hr
  have hg := (silent_run B Case.comm).2.1 B
  refine Served.cons hs (by simp [Event.serves]) hg (fun i hi => by cases hi)
    (served_of_out _ _ _ rfl (hR.step hs (by simp [Event.serves]) hg) ?_)
  simp [outOf, List.filter_append, hR.xkey]

/-- The loop of `B` holds an item and no item of `B` is in the output: the
item is `x`, and `Get` receives it, after the output got room if needed. -/
theorem served_of_deliver {N M : Nat} {A B : PartitionKey} {a x : Item} {rest : List Item}
    {q : Queue} {h : Hist} (hR : Ready N M A B a x rest q h) {p : partition} {i : Item}
    (hp : q.parts B = some p) (hpc : p.pc = Loop.Deliver i) (ho : outOf B q = []) :
    Served B a x q h := by
  obtain ⟨p2, mid, hp2, _, _, hflow, hmid, _⟩ := hR.part
  rw [hp] at hp2; cases hp2
  rw [hpc] at hmid
  simp only [MidRel] at hmid
  subst hmid
  rw [ho] at hflow
  simp only [List.nil_append, List.cons_append, List.cons.injEq] at hflow
  obtain ⟨rfl, _⟩ := hflow
  by_cases hM : M = 0
  · have hb : q.buffer = [] := by
      have := hR.inv.outRoom
      exact List.length_eq_zero.1 (by omega)
    have hs : step q (Event.Get Context.live Case.comm B) =
        some (q.setPart B { p with pc := Loop.AcquireSlot }, Ret.getRet (some x) none) := by
      simp [step, Queue.Get, hb, hR.inv.bufferCap, hM, hp, hpc]
    exact served_single hs hR.xkey hR.ack
  · by_cases hroom : q.buffer.length < M
    · exact served_of_room hR hp hpc hroom
    · cases hb : q.buffer with
      | nil => rw [hb] at hroom; simp at hroom; omega
      | cons j l =>
        have hj : ¬ j.Key = B := by
          intro hj
          have : j ∈ outOf B q := by simp [outOf, hb, hj]
          rw [ho] at this; cases this
        have hs := step_get_head hb B
        have hg : Entry.got B (Event.Get Context.live Case.comm B, Ret.getRet (some j) none) =
            none := by simp [Entry.got, hj]
        have hR2 := hR.step hs rfl hg
        refine Served.cons hs rfl hg (fun i hi => by cases hi) (served_of_room hR2 hp hpc ?_)
        have := hR.inv.outRoom
        rw [hb] at this
        simp only [List.length_cons] at this
        show l.length < M
        omega

/-- The loop of `B` waits for an item: it pops `x`. -/
theorem served_of_await {N M : Nat} {A B : PartitionKey} {a x : Item} {rest : List Item}
    {q : Queue} {h : Hist} (hR : Ready N M A B a x rest q h) {p : partition}
    (hp : q.parts B = some p) (hpc : p.pc = Loop.AwaitItem) (ho : outOf B q = []) :
    Served B a x q h := by
  obtain ⟨p2, mid, hp2, _, _, hflow, hmid, _⟩ := hR.part
  rw [hp] at hp2; cases hp2
  rw [hpc] at hmid
  simp only [MidRel] at hmid
  subst hmid
  rw [ho] at hflow
  simp only [List.nil_append] at hflow
  have hr : p.run q.ctx q.buffer q.bufferCap Case.comm =
      some ({ p with buffer := rest, pc := Loop.Deliver x }, q.buffer) := by
    simp [partition.run, hpc, ← hflow]
  have hs := step_run hp hr
  have hg := (silent_run B Case.comm).2.1 B
  exact Served.cons hs (by simp [Event.serves]) hg (fun i hi => by cases hi)
    (served_of_deliver (hR.step hs (by simp [Event.serves]) hg)
      (p := { p with buffer := rest, pc := Loop.Deliver x }) (by simp [Queue.setPart]) rfl ho)

/-- The loop of `B` is before the gate and the gate is free: it takes it. -/
theorem served_of_free {N M : Nat} {A B : PartitionKey} {a x : Item} {rest : List Item}
    {q : Queue} {h : Hist} (hR : Ready N M A B a x rest q h) {p : partition}
    (hp : q.parts B = some p) (hpc : p.pc = Loop.AcquireSlot) (ht : p.inflight = 0)
    (ho : outOf B q = []) : Served B a x q h := by
  have hr : p.run q.ctx q.buffer q.bufferCap Case.comm =
      some ({ p with inflight := p.inflight + 1, pc := Loop.AwaitItem }, q.buffer) := by
    simp [partition.run, hpc, ht]
  have hs := step_run hp hr
  have hg := (silent_run B Case.comm).2.1 B
  exact Served.cons hs (by simp [Event.serves]) hg (fun i hi => by cases hi)
    (served_of_await (hR.step hs (by simp [Event.serves]) hg)
      (p := { p with inflight := p.inflight + 1, pc := Loop.AwaitItem })
      (by simp [Queue.setPart]) rfl ho)

/-- From a ready state the next item of `B` reaches a consumer by events that serve `B`. -/
theorem Ready.served {N M : Nat} {A B : PartitionKey} {a x : Item} {rest : List Item}
    {q : Queue} {h : Hist} (hR : Ready N M A B a x rest q h) : Served B a x q h := by
  by_cases ho : outOf B q = []
  · obtain ⟨p, mid, hp, hne, htle, hflow, hmid, hgate⟩ := hR.part
    cases hpc : p.pc with
    | Stopped => exact absurd hpc hne
    | Deliver i => exact served_of_deliver hR hp hpc ho
    | AwaitItem => exact served_of_await hR hp hpc ho
    | AcquireSlot =>
      by_cases ht : p.inflight = 0
      · exact served_of_free hR hp hpc ht ho
      · rw [hpc, ho] at hgate
        simp only [Loop.slot, List.length_nil, Nat.zero_add] at hgate
        have hu : 0 < (gotItems B h).length := by omega
        obtain ⟨b, hb⟩ := List.exists_mem_of_length_pos hu
        have hb1 : b.Key = B ∧ b.p = some B :=
          acceptedItems_wf B h b ((gotItems_initial hR.inv B).subset hb)
        have hs : partqueue.step q (Event.Done b) =
            some (q.setPart B { p with inflight := p.inflight - 1 }, Ret.unit) := by
          have : 0 < p.inflight := Nat.pos_of_ne_zero ht
          simp [partqueue.step, Item.Done, hb1.2, hp, partition.decrementInflight, this]
        have hg : Entry.got B (Event.Done b, Ret.unit) = none := rfl
        have he : (Event.Done b).serves B = true := by simp [Event.serves, hb1.1]
        refine Served.cons hs he hg (fun i hi => by cases hi; exact hb) (served_of_free
          (hR.step hs he hg)
          (p := { p with inflight := p.inflight - 1 }) (by simp [Queue.setPart]) hpc ?_ ho)
        show p.inflight - 1 = 0
        omega
  · exact served_of_out _ _ _ rfl hR ho

theorem serve_two (N M : Nat) (A B : PartitionKey) (hAB : A ≠ B) (v w : Value) :
    ∃ q h, exec (newQueue N M) [] (serve N M A v ++ serve N M B w) = some (q, h) ∧
      unacked h = [⟨A, v, some A⟩, ⟨B, w, some B⟩] := by
  have hBA : B ≠ A := Ne.symm hAB
  have key : (exec (newQueue N M) [] (serve N M A v ++ serve N M B w)).elim False
      (fun r => unacked r.2 = [⟨A, v, some A⟩, ⟨B, w, some B⟩]) := by
    by_cases hN : N = 0 <;> by_cases hM : M = 0 <;>
      simp [serve, hN, hM, exec, step, newQueue, New, WithPartitionCapacity, WithBufferCapacity,
        Queue.getOrCreatePartition, Queue.setPart, Queue.run, partition.run, newPartition,
        Queue.Put, partition.put, Queue.Get, hAB, hBA, unacked, ackStep, Nat.pos_of_ne_zero]
  cases hx : exec (newQueue N M) [] (serve N M A v ++ serve N M B w) with
  | none => rw [hx] at key; exact key.elim
  | some r =>
    rw [hx] at key
    exact ⟨r.1, r.2, rfl, key⟩

theorem put_buffer {q q2 : Queue} {ctx : Context} {c : Case} {k : PartitionKey} {v : Value}
    {err : Option Error} (hs : q.Put ctx c k v = some (q2, err)) : q2.buffer = q.buffer := by
  unfold Queue.Put at hs
  simp only at hs
  split at hs
  · cases hs
  · simp only [Option.some.injEq, Prod.mk.injEq] at hs
    rw [← hs.1]
    exact (getOrCreate_frame q k).1

theorem done_buffer {q q2 : Queue} {i : Item} (hs : i.Done q = some q2) :
    q2.buffer = q.buffer := by
  unfold Item.Done at hs
  split at hs
  · cases hs; rfl
  · split at hs
    · cases hs
    · split at hs
      · cases hs
      · cases hs; rfl

/-- What a step of a loop does to the shared output. -/
theorem run_buffer {q q2 : Queue} {k : PartitionKey} {c : Case} (hs : q.run k c = some q2) :
    ∃ p, q.parts k = some p ∧ p.pc ≠ Loop.Stopped ∧
      (q2.buffer = q.buffer ∨ ∃ i, p.pc = Loop.Deliver i ∧ q2.buffer = q.buffer ++ [i]) := by
  unfold Queue.run at hs
  split at hs
  · cases hs
  · rename_i p hp
    split at hs
    · cases hs
    · rename_i p2 out hrun
      cases hs
      refine ⟨p, hp, ?_, ?_⟩
      · intro hpc
        simp [partition.run, hpc] at hrun
      · unfold partition.run at hrun
        split at hrun
        · cases hrun
        · split at hrun
          · cases hrun; exact Or.inl rfl
          · cases hrun
        · split at hrun
          · cases hrun; exact Or.inl rfl
          · cases hrun
        · split at hrun
          · cases hrun
          · cases hrun; exact Or.inl rfl
        · rename_i i hpc
          split at hrun
          · cases hrun; exact Or.inr ⟨i, hpc, rfl⟩
          · cases hrun

/-- Once the loop of `B` has returned with no item of `B` in the output, no
event puts one there and no `Get` returns one. -/
theorem stuck_step {N M : Nat} {B : PartitionKey} {q q2 : Queue} {h : Hist} {e : Event}
    {r : Ret} {p : partition} (hI : Inv N M q h) (hp : q.parts B = some p)
    (hpc : p.pc = Loop.Stopped) (ho : outOf B q = []) (hs : step q e = some (q2, r)) :
    outOf B q2 = [] ∧ Entry.got B (e, r) = none := by
  cases e with
  | Put ctx c k v =>
    simp only [step] at hs
    split at hs
    · cases hs
    · rename_i q3 err hput
      simp only [Option.some.injEq, Prod.mk.injEq] at hs
      obtain ⟨rfl, rfl⟩ := hs
      exact ⟨by simp only [outOf, put_buffer hput]; exact ho, rfl⟩
  | Get ctx c src =>
    simp only [step] at hs
    split at hs
    · cases hs
    · rename_i q3 oi err hget
      simp only [Option.some.injEq, Prod.mk.injEq] at hs
      obtain ⟨rfl, rfl⟩ := hs
      cases c with
      | ctxDone =>
        obtain ⟨_, h2, _, _, h5, _⟩ := (get_ret hget).1 rfl
        subst h2
        exact ⟨by simp only [outOf, h5]; exact ho, rfl⟩
      | comm =>
        obtain ⟨_, i, hi, hcase⟩ := (get_ret hget).2 rfl
        subst hi
        rcases hcase with ⟨h1, _⟩ | ⟨_, h2, _, p3, hp3, hpc3, _⟩
        · have hiB : ¬ i.Key = B := by
            intro hiB
            have : i ∈ outOf B q := by simp [outOf, h1, hiB]
            rw [ho] at this; cases this
          refine ⟨?_, by simp [Entry.got, hiB]⟩
          have : outOf B q = outOf B q3 := by simp [outOf, h1, hiB]
          rw [← this]; exact ho
        · have hk := (held_key hI hp3 hpc3).1
          have hiB : ¬ i.Key = B := by
            intro hiB
            rw [hk] at hiB; subst hiB
            rw [hp] at hp3; cases hp3
            rw [hpc] at hpc3; cases hpc3
          exact ⟨by simp [outOf, h2], by simp [Entry.got, hiB]⟩
  | Done i =>
    simp only [step] at hs
    split at hs
    · cases hs
    · rename_i q3 hdone
      simp only [Option.some.injEq, Prod.mk.injEq] at hs
      obtain ⟨rfl, rfl⟩ := hs
      exact ⟨by simp only [outOf, done_buffer hdone]; exact ho, rfl⟩
  | run k c =>
    simp only [step] at hs
    split at hs
    · cases hs
    · rename_i q3 hrun
      simp only [Option.some.injEq, Prod.mk.injEq] at hs
      obtain ⟨rfl, rfl⟩ := hs
      refine ⟨?_, rfl⟩
      obtain ⟨p3, hp3, hne, hcase⟩ := run_buffer hrun
      rcases hcase with h1 | ⟨i, hpc3, h1⟩
      · simp only [outOf, h1]; exact ho
      · have hk := (held_key hI hp3 hpc3).1
        have hiB : ¬ i.Key = B := by
          intro hiB
          rw [hk] at hiB; subst hiB
          rw [hp] at hp3; cases hp3
          exact hne hpc
        simp only [outOf, h1, List.filter_append]
        simp only [outOf] at ho
        simp [ho, hiB]
  | getOrCreatePartition k =>
    simp only [step, Option.some.injEq, Prod.mk.injEq] at hs
    obtain ⟨rfl, rfl⟩ := hs
    exact ⟨by simp only [outOf, (getOrCreate_frame q k).1]; exact ho, rfl⟩
  | cancel =>
    simp only [step, Option.some.injEq, Prod.mk.injEq] at hs
    obtain ⟨rfl, rfl⟩ := hs
    exact ⟨ho, rfl⟩

theorem stuck_exec {N M : Nat} {B : PartitionKey} (tr : List Event) :
    ∀ {q q2 : Queue} {h h2 : Hist} {p : partition}, Inv N M q h → q.parts B = some p →
      p.pc = Loop.Stopped → outOf B q = [] → exec q h tr = some (q2, h2) →
      gotItems B h2 = gotItems B h := by
  induction tr with
  | nil =>
    intro q q2 h h2 p _ _ _ _ hx
    simp only [exec, Option.some.injEq, Prod.mk.injEq] at hx
    rw [hx.2]
  | cons e es ih =>
    intro q q2 h h2 p hI hp hpc ho hx
    simp only [exec] at hx
    split at hx
    · cases hx
    · rename_i q3 r hs
      obtain ⟨p3, hp3, hpc3⟩ := stopped_stays hs hp hpc
      obtain ⟨ho3, hg⟩ := stuck_step hI hp hpc ho hs
      rw [ih (hI.of_step e r hs) hp3 hpc3 ho3 hx, gotItems_snoc, hg]
      simp

/-- Against C3 as stated: after `stalled` an item of "A" is unacknowledged and
"B" has an accepted, undelivered item at the head of its order, but the
queue-wide context is cancelled and the loop of "B" has returned: in no
continuation does `Get` return the item of "B". -/
theorem C3_counterexample :
    ∃ q h, exec (newQueue 1 0) [] stalled = some (q, h) ∧ q.ctx.Done = true ∧
      item "A" 0 ∈ unacked h ∧ acceptedItems "B" h = gotItems "B" h ++ [item "B" 5] ∧
      ∀ tr q2 h2, exec q h tr = some (q2, h2) → gotItems "B" h2 = [] := by
  refine ⟨_, _, exec_get (by decide), by decide, by decide, by decide, ?_⟩
  have hI : Inv 1 0 _ _ := Inv.reach (exec_get (by decide : (exec (newQueue 1 0) []
    stalled).isSome = true))
  generalize hq : ((exec (newQueue 1 0) [] stalled).get (by decide)).1 = q at hI ⊢
  generalize hh : ((exec (newQueue 1 0) [] stalled).get (by decide)).2 = h at hI ⊢
  have hp : q.parts "B" = some ⟨1, [item "B" 5], 0, Loop.Stopped⟩ := by rw [← hq]; decide
  have ho : outOf "B" q = [] := by rw [← hq]; decide
  have hg : gotItems "B" h = [] := by rw [← hh]; decide
  intro tr q2 h2 hx
  rw [stuck_exec tr hI hp rfl ho hx, hg]

/-- C3, amended: cross-partition parallelism.  For every two distinct keys
`A` and `B` and all capacities, the execution `serve A ++ serve B` reaches a
state in which an item of `A` and an item of `B` have both been returned by
`Get` and neither is acknowledged.  And from every reachable state whose
queue-wide context is not cancelled, in which an item `a` of `A` is
unacknowledged and `x` is the first accepted item of `B` that `Get` has not
returned, there is a continuation made of calls of `Get`, steps of the loop of
`B` and `Done` on items of `B` that `Get` had returned, hence without any
`Done` on an item of `A`, after which `Get` has returned `x` and `a` is still
unacknowledged. -/
theorem C3_cross_partition (N M : Nat) (A B : PartitionKey) (hAB : A ≠ B) :
    (∀ v w, ∃ q h, exec (newQueue N M) [] (serve N M A v ++ serve N M B w) = some (q, h) ∧
      unacked h = [⟨A, v, some A⟩, ⟨B, w, some B⟩]) ∧
    (∀ (tr : List Event) (q : Queue) (h : Hist) (a x : Item) (rest : List Item),
      exec (newQueue N M) [] tr = some (q, h) → q.ctx.Done = false →
      a.Key = A → a ∈ unacked h → acceptedItems B h = gotItems B h ++ x :: rest →
      ∃ tr2 q2 h2, exec q h tr2 = some (q2, h2) ∧ (∀ e ∈ tr2, e.serves B = true) ∧
        (∀ i, Event.Done i ∈ tr2 → i.Key ≠ A ∧ i ∈ gotItems B h) ∧
        gotItems B h2 = gotItems B h ++ [x] ∧ a ∈ unacked h2) := by
  refine ⟨fun v w => serve_two N M A B hAB v w, fun tr q h a x rest hx hl ha hu hn => ?_⟩
  have hR : Ready N M A B a x rest q h := ⟨Inv.reach hx, hl, hAB, ha, hu, hn⟩
  obtain ⟨tr2, q2, h2, h1, h3, h4, h5, h6⟩ := hR.served
  refine ⟨tr2, q2, h2, h1, h3, fun i hi => ⟨fun hk => ?_, h4 i hi⟩, h5, h6⟩
  have := h3 _ hi
  simp only [Event.serves, decide_eq_true_eq] at this
  exact hAB (hk.symm.trans this)

/-- After `waiting` the item of "A" is unacknowledged, and the item of "B" can be delivered. -/
theorem C3_cross_partition_witness :
    ∃ q h, exec (newQueue 1 0) [] waiting = some (q, h) ∧ q.ctx.Done = false ∧
      item "A" 0 ∈ unacked h ∧ acceptedItems "B" h = gotItems "B" h ++ [item "B" 5] ∧
      ∃ tr2 q2 h2, exec q h tr2 = some (q2, h2) ∧ (∀ e ∈ tr2, e.serves "B" = true) ∧
        (∀ i, Event.Done i ∈ tr2 → i.Key ≠ "A" ∧ i ∈ gotItems "B" h) ∧
        gotItems "B" h2 = gotItems "B" h ++ [item "B" 5] ∧ item "A" 0 ∈ unacked h2 :=
  ⟨_, _, exec_get (by decide), by decide, by decide, by decide,
    (C3_cross_partition 1 0 "A" "B" (by decide)).2 waiting _ _ (item "A" 0) (item "B" 5) []
      (exec_get (by decide)) (by decide) rfl (by decide) (by decide)⟩

/-- The accepted items of a key are those in the four places and the missing ones. -/
theorem missing_spec {N M : Nat} {q : Queue} {h : Hist} (hI : Inv N M q h) (K : PartitionKey) :
    (acceptedItems K h).length =
        (gotItems K h).length + (outOf K q).length + (placed K q).length + missing K q h ∧
      (∀ p, q.parts K = some p → p.pc ≠ Loop.Stopped → missing K q h = 0) ∧
      (q.parts K = none → missing K q h = 0) ∧ missing K q h ≤ 1 := by
  cases hp : q.parts K with
  | none =>
    obtain ⟨a1, a2, a3, _⟩ := hI.absent K hp
    simp [missing, placed, hp, a1, a2, a3]
  | some p =>
    obtain ⟨d, h1, h2, h3⟩ := conservation hI K p hp
    have hl := congrArg List.length h1
    simp only [List.length_append] at hl
    have hm : missing K q h = d.length := by
      simp only [missing, placed, hp, List.length_append]
      omega
    refine ⟨?_, fun p2 hp2 hne => ?_, fun hc => Option.noConfusion hc, hm ▸ h3⟩
    · simp only [placed, hp, List.length_append]; omega
    · cases hp2
      rw [hm, h2 hne]; rfl

/-- A step after which the loop of `K` is returned, other than the return
itself, starts with the loop returned and moves the accepted items of `K`
only between the four places. -/
theorem stopped_step {N M : Nat} {K : PartitionKey} {q q2 : Queue} {h : Hist} {e : Event}
    {r : Ret} {p2 : partition} (hI : Inv N M q h) (hs : step q e = some (q2, r))
    (hp2 : q2.parts K = some p2) (hpc2 : p2.pc = Loop.Stopped)
    (hne : e ≠ Event.run K Case.ctxDone) :
    ∃ p, q.parts K = some p ∧ p.pc = Loop.Stopped ∧
      (acceptedItems K (h ++ [(e, r)])).length + (gotItems K h).length + (outOf K q).length +
          p.buffer.length =
        (acceptedItems K h).length + (gotItems K (h ++ [(e, r)])).length +
          (outOf K q2).length + p2.buffer.length := by
  cases e with
  | Put ctx c k v =>
    simp only [step] at hs
    split at hs
    · cases hs
    · rename_i q3 err hput
      simp only [Option.some.injEq, Prod.mk.injEq] at hs
      obtain ⟨rfl, rfl⟩ := hs
      have hb := put_buffer hput
      have hr := put_ret hput
      have hg : gotItems K (h ++ [(Event.Put ctx c k v, Ret.putRet err)]) = gotItems K h := by
        simp [gotItems_snoc, Entry.got]
      have ho : outOf K q3 = outOf K q := by simp only [outOf, hb]
      by_cases hk : K = k
      · subst hk
        unfold Queue.Put at hput
        simp only at hput
        split at hput
        · cases hput
        · rename_i p3 e3 hp3
          simp only [Option.some.injEq, Prod.mk.injEq] at hput
          obtain ⟨rfl, rfl⟩ := hput
          rw [setPart_parts_self] at hp2
          cases hp2
          rcases getOrCreate_spec q K with ⟨h1, _⟩ | ⟨_, h2, _⟩
          · generalize (q.getOrCreatePartition K).2 = p at hp3 h1
            unfold partition.put at hp3
            cases c with
            | ctxDone =>
              simp only at hp3
              split at hp3
              · simp only [Option.some.injEq, Prod.mk.injEq] at hp3
                obtain ⟨rfl, rfl⟩ := hp3
                obtain ⟨_, _, e, he⟩ := hr.2 rfl
                refine ⟨p, h1, hpc2, ?_⟩
                rw [hg, ho, he, (silent_putErr ctx Case.ctxDone K v e).accepted]
              · cases hp3
            | comm =>
              simp only at hp3
              split at hp3
              · simp only [Option.some.injEq, Prod.mk.injEq] at hp3
                obtain ⟨rfl, rfl⟩ := hp3
                refine ⟨p, h1, hpc2, ?_⟩
                rw [hg, ho]
                simp [acceptedItems_snoc, Entry.accepted]
                omega
              · split at hp3
                · simp only [Option.some.injEq, Prod.mk.injEq] at hp3
                  obtain ⟨rfl, _⟩ := hp3
                  cases hpc2
                · cases hp3
          · rw [h2] at hp3
            unfold partition.put at hp3
            cases c with
            | ctxDone =>
              simp only at hp3
              split at hp3
              · simp only [Option.some.injEq, Prod.mk.injEq] at hp3
                obtain ⟨rfl, _⟩ := hp3
                cases hpc2
              · cases hp3
            | comm =>
              simp only at hp3
              split at hp3
              · simp only [Option.some.injEq, Prod.mk.injEq] at hp3
                obtain ⟨rfl, _⟩ := hp3
                cases hpc2
              · split at hp3
                · simp only [Option.some.injEq, Prod.mk.injEq] at hp3
                  obtain ⟨rfl, _⟩ := hp3
                  cases hpc2
                · cases hp3
      · have hf := (getOrCreate_frame q k).2 K hk
        have hpq : q.parts K = some p2 := by
          unfold Queue.Put at hput
          simp only at hput
          split at hput
          · cases hput
          · simp only [Option.some.injEq, Prod.mk.injEq] at hput
            obtain ⟨rfl, _⟩ := hput
            rw [setPart_parts_ne _ _ _ _ hk, hf] at hp2
            exact hp2
        refine ⟨p2, hpq, hpc2, ?_⟩
        have ha : acceptedItems K (h ++ [(Event.Put ctx c k v, Ret.putRet err)]) =
            acceptedItems K h := by
          cases err with
          | none => simp [acceptedItems_snoc, Entry.accepted, Ne.symm hk]
          | some e => simp [acceptedItems_snoc, Entry.accepted]
        rw [hg, ho, ha]
  | Get ctx c src =>
    simp only [step] at hs
    split at hs
    · cases hs
    · rename_i q3 oi err hget
      simp only [Option.some.injEq, Prod.mk.injEq] at hs
      obtain ⟨rfl, rfl⟩ := hs
      have ha : ∀ oi err, acceptedItems K (h ++ [(Event.Get ctx c src, Ret.getRet oi err)]) =
          acceptedItems K h := by
        intro oi err; simp [acceptedItems_snoc, Entry.accepted]
      cases c with
      | ctxDone =>
        obtain ⟨_, h2, _, _, h5, h6⟩ := (get_ret hget).1 rfl
        subst h2
        rw [h6] at hp2
        refine ⟨p2, hp2, hpc2, ?_⟩
        have hg : gotItems K (h ++ [(Event.Get ctx Case.ctxDone src, Ret.getRet none err)]) =
            gotItems K h := by simp [gotItems_snoc, Entry.got]
        have ho : outOf K q3 = outOf K q := by simp only [outOf, h5]
        rw [ha, hg, ho]
      | comm =>
        obtain ⟨_, i, hi, hcase⟩ := (get_ret hget).2 rfl
        subst hi
        rcases hcase with ⟨h1, h6⟩ | ⟨h1, h2, _, p3, hp3, hpc3, hp4, hfr⟩
        · rw [h6] at hp2
          refine ⟨p2, hp2, hpc2, ?_⟩
          rw [ha]
          by_cases hiK : i.Key = K
          · have hg : (gotItems K (h ++ [(Event.Get ctx Case.comm src,
                Ret.getRet (some i) err)])).length = (gotItems K h).length + 1 := by
              simp [gotItems_snoc, Entry.got, hiK]
            have ho : (outOf K q).length = (outOf K q3).length + 1 := by
              simp [outOf, h1, hiK]
            omega
          · have hg : gotItems K (h ++ [(Event.Get ctx Case.comm src,
                Ret.getRet (some i) err)]) = gotItems K h := by
              simp [gotItems_snoc, Entry.got, hiK]
            have ho : outOf K q = outOf K q3 := by simp [outOf, h1, hiK]
            rw [hg, ho]
        · have hk := (held_key hI hp3 hpc3).1
          by_cases hsrc : K = src
          · subst hsrc
            rw [hp4] at hp2; cases hp2; cases hpc2
          · rw [hfr K hsrc] at hp2
            refine ⟨p2, hp2, hpc2, ?_⟩
            have hiK : ¬ i.Key = K := by rw [hk]; exact Ne.symm hsrc
            have hg : gotItems K (h ++ [(Event.Get ctx Case.comm src,
                Ret.getRet (some i) err)]) = gotItems K h := by
              simp [gotItems_snoc, Entry.got, hiK]
            have ho : outOf K q = outOf K q3 := by simp [outOf, h1, h2]
            rw [ha, hg, ho]
  | Done i =>
    simp only [step] at hs
    split at hs
    · cases hs
    · rename_i q3 hdone
      simp only [Option.some.injEq, Prod.mk.injEq] at hs
      obtain ⟨rfl, rfl⟩ := hs
      have hb := done_buffer hdone
      have ha : acceptedItems K (h ++ [(Event.Done i, Ret.unit)]) = acceptedItems K h := by
        simp [acceptedItems_snoc, Entry.accepted]
      have hg : gotItems K (h ++ [(Event.Done i, Ret.unit)]) = gotItems K h := by
        simp [gotItems_snoc, Entry.got]
      have ho : outOf K q3 = outOf K q := by simp only [outOf, hb]
      rw [ha, hg, ho]
      unfold Item.Done at hdone
      split at hdone
      · cases hdone; exact ⟨p2, hp2, hpc2, rfl⟩
      · rename_i k2 _
        split at hdone
        · cases hdone
        · rename_i p3 hp3
          split at hdone
          · cases hdone
          · rename_i p4 hdec
            cases hdone
            by_cases hk : K = k2
            · subst hk
              rw [setPart_parts_self] at hp2
              cases hp2
              unfold partition.decrementInflight at hdec
              split at hdec
              · cases hdec
                exact ⟨p3, hp3, hpc2, rfl⟩
              · cases hdec
            · rw [setPart_parts_ne _ _ _ _ hk] at hp2
              exact ⟨p2, hp2, hpc2, rfl⟩
  | run k c =>
    simp only [step] at hs
    split at hs
    · cases hs
    · rename_i q3 hrun
      simp only [Option.some.injEq, Prod.mk.injEq] at hs
      obtain ⟨rfl, rfl⟩ := hs
      have hx := silent_run k c
      obtain ⟨p3, hp3, hne3, hcase⟩ := run_buffer hrun
      by_cases hk : K = k
      · subst hk
        exfalso
        unfold Queue.run at hrun
        rw [hp3] at hrun
        simp only at hrun
        split at hrun
        · cases hrun
        · rename_i p4 out hr
          cases hrun
          simp only [Queue.setPart, if_true, Option.some.injEq] at hp2
          subst hp2
          unfold partition.run at hr
          split at hr
          · cases hr
          · rename_i c2 _
            exact hne rfl
          · split at hr
            · cases hr; cases hpc2
            · cases hr
          · split at hr
            · cases hr
            · cases hr; cases hpc2
          · split at hr
            · cases hr; cases hpc2
            · cases hr
      · have hpq : q.parts K = some p2 := by
          unfold Queue.run at hrun
          rw [hp3] at hrun
          simp only at hrun
          split at hrun
          · cases hrun
          · cases hrun
            simpa [Queue.setPart, hk] using hp2
        refine ⟨p2, hpq, hpc2, ?_⟩
        have ho : outOf K q3 = outOf K q := by
          rcases hcase with h1 | ⟨i, hpc3, h1⟩
          · simp only [outOf, h1]
          · have hik := (held_key hI hp3 hpc3).1
            have : ¬ i.Key = K := by rw [hik]; exact Ne.symm hk
            simp [outOf, h1, List.filter_append, this]
        rw [hx.accepted, hx.got, ho]
  | getOrCreatePartition k =>
    simp only [step, Option.some.injEq, Prod.mk.injEq] at hs
    obtain ⟨rfl, rfl⟩ := hs
    have hx := silent_create k
    have ho : outOf K (q.getOrCreatePartition k).1 = outOf K q := by
      simp only [outOf, (getOrCreate_frame q k).1]
    rw [hx.accepted, hx.got, ho]
    by_cases hk : K = k
    · subst hk
      rcases getOrCreate_spec q K with ⟨h1, h2⟩ | ⟨_, h2, h3⟩
      · rw [h2] at hp2
        exact ⟨p2, hp2, hpc2, rfl⟩
      · rw [h3, setPart_parts_self] at hp2
        cases hp2; cases hpc2
    · rw [(getOrCreate_frame q k).2 K hk] at hp2
      exact ⟨p2, hp2, hpc2, rfl⟩
  | cancel =>
    simp only [step, Option.some.injEq, Prod.mk.injEq] at hs
    obtain ⟨rfl, rfl⟩ := hs
    have hx := silent_cancel
    refine ⟨p2, hp2, hpc2, ?_⟩
    rw [hx.accepted, hx.got]
    rfl

/-- A step changes the number of missing items of a key only when it is the
return of the key's loop, and then by the number of items the loop holds. -/
theorem missing_step {N M : Nat} {q q2 : Queue} {h : Hist} {e : Event} {r : Ret}
    (hI : Inv N M q h) (hs : step q e = some (q2, r)) (K : PartitionKey) :
    missing K q2 (h ++ [(e, r)]) =
      missing K q h + (if e = Event.run K Case.ctxDone then (heldOf K q).length else 0) := by
  have hI2 := hI.of_step e r hs
  obtain ⟨m1, m2, m3, _⟩ := missing_spec hI K
  obtain ⟨n1, n2, n3, _⟩ := missing_spec hI2 K
  by_cases he : e = Event.run K Case.ctxDone
  · subst he
    simp only [if_true]
    simp only [step] at hs
    split at hs
    · cases hs
    · rename_i q3 hrun
      simp only [Option.some.injEq, Prod.mk.injEq] at hs
      obtain ⟨rfl, rfl⟩ := hs
      obtain ⟨p, hp, hne, _⟩ := run_buffer hrun
      have hq : q3 = { q.setPart K { p with pc := Loop.Stopped } with buffer := q.buffer } := by
        by_cases hd : q.ctx.Done = true
        · cases hpc : p.pc with
          | Stopped => exact absurd hpc hne
          | AcquireSlot =>
            simp [Queue.run, hp, partition.run, hpc, hd] at hrun
            rw [← hrun]; rfl
          | AwaitItem =>
            simp [Queue.run, hp, partition.run, hpc, hd] at hrun
            rw [← hrun]; rfl
          | Deliver i =>
            simp [Queue.run, hp, partition.run, hpc, hd] at hrun
            rw [← hrun]; rfl
        · cases hpc : p.pc <;> simp [Queue.run, hp, partition.run, hpc, hd] at hrun
      have hx := silent_run K Case.ctxDone
      have hz := m2 p hp hne
      rw [hz] at m1
      rw [hx.accepted, hx.got] at n1
      have ho : outOf K q3 = outOf K q := by rw [hq]; rfl
      have hpl : placed K q3 = p.buffer := by
        rw [hq]; simp [placed, Queue.setPart, Loop.held]
      have hpl1 : placed K q = p.pc.held ++ p.buffer := by simp [placed, hp]
      have hh : heldOf K q = p.pc.held := by simp [heldOf, hp]
      rw [ho, hpl] at n1
      rw [hpl1, List.length_append] at m1
      rw [hz, hh]
      omega
  · simp only [he, if_false, Nat.add_zero]
    cases hp2 : q2.parts K with
    | none =>
      rw [n3 hp2]
      have ha2 := (hI2.absent K hp2).1
      rw [acceptedItems_snoc] at ha2
      have ha : acceptedItems K h = [] := (List.append_eq_nil.1 ha2).1
      simp [missing, ha]
    | some p2 =>
      by_cases hpc2 : p2.pc = Loop.Stopped
      · obtain ⟨p, hp, hpc, heq⟩ := stopped_step hI hs hp2 hpc2 he
        have hpl : placed K q = p.buffer := by simp [placed, hp, hpc, Loop.held]
        have hpl2 : placed K q2 = p2.buffer := by simp [placed, hp2, hpc2, Loop.held]
        rw [hpl] at m1
        rw [hpl2] at n1
        omega
      · rw [n2 p2 hp2 hpc2]
        cases hp : q.parts K with
        | none => exact (m3 hp).symm
        | some p =>
          by_cases hpc : p.pc = Loop.Stopped
          · obtain ⟨p3, hp3, hpc3⟩ := stopped_stays hs hp hpc
            rw [hp2] at hp3; cases hp3
            exact absurd hpc3 hpc2
          · exact (m2 p hp hpc).symm

/-- C9, amended: in every reachable state the items accepted under a key are,
each exactly once and in the order of acceptance, the items returned by `Get`,
then those in the shared output, then the item the forwarding loop holds, then
the pending buffer; the only exception is one item that a loop held when it
returned on cancellation, and there is none while the loop runs.  No event
makes an accepted item go missing but the return of the key's loop, which
loses the item the loop holds. -/
theorem C9_no_item_dropped (N M : Nat) (tr : List Event) (q : Queue) (h : Hist)
    (hx : exec (newQueue N M) [] tr = some (q, h)) (K : PartitionKey) :
    (∀ p, q.parts K = some p →
      ∃ dropped, acceptedItems K h =
          gotItems K h ++ outOf K q ++ p.pc.held ++ dropped ++ p.buffer ∧
        dropped.length = missing K q h ∧
        (p.pc ≠ Loop.Stopped → dropped = []) ∧ dropped.length ≤ 1) ∧
    (q.parts K = none → acceptedItems K h = [] ∧ gotItems K h = [] ∧ outOf K q = []) ∧
    (∀ e q2 r, step q e = some (q2, r) →
      missing K q2 (h ++ [(e, r)]) =
        missing K q h + (if e = Event.run K Case.ctxDone then (heldOf K q).length else 0)) := by
  have hI := Inv.reach hx
  refine ⟨fun p hp => ?_, fun hp => ⟨(hI.absent K hp).1, (hI.absent K hp).2.1,
    (hI.absent K hp).2.2.1⟩, fun e q2 r hs => missing_step hI hs K⟩
  obtain ⟨d, h1, h2, h3⟩ := conservation hI K p hp
  refine ⟨d, h1, ?_, h2, h3⟩
  have hl := congrArg List.length h1
  simp only [List.length_append] at hl
  simp only [missing, placed, hp, List.length_append]
  omega

/-- In `heldByLoop` the accepted item is the one the loop holds, and the
return of the loop after cancellation loses it. -/
theorem C9_no_item_dropped_witness :
    ∃ q h q2, exec (newQueue 1 0) [] (heldByLoop ++ [Event.cancel]) = some (q, h) ∧
      step q (Event.run "a" Case.ctxDone) = some (q2, Ret.unit) ∧
      missing "a" q h = 0 ∧ heldOf "a" q = [item "a" 1] ∧
      missing "a" q2 (h ++ [(Event.run "a" Case.ctxDone, Ret.unit)]) =
        missing "a" q h +
          (if Event.run "a" Case.ctxDone = Event.run "a" Case.ctxDone then
            (heldOf "a" q).length else 0) :=
  ⟨_, _, _, exec_get (by decide), rfl, by decide, by decide,
    (C9_no_item_dropped 1 0 (heldByLoop ++ [Event.cancel]) _ _ (exec_get (by decide)) "a").2.2
      (Event.run "a" Case.ctxDone) _ Ret.unit rfl⟩

end partqueue
